import Mathlib

/-!
Verification of the skaffold configuration dependency resolver.

The repository ships the test corpus `cmd/skaffold/app/cmd/parse_config_test.go`
for the resolver entry point `getAllConfigs`; the resolver implementation itself
(`cmd/skaffold/app/cmd/parse_config.go`) is not part of the sources at hand, so
the resolver, the profile activation evaluator, the path resolver interface and
the selection filter are modelled from the specification (spec.md §3, §4, §6, §7)
and exercised on the literal scenarios of the test corpus.
-/

namespace Skaffold

/-- Node identity: (canonical document path, configuration name) (spec §3). -/
abbrev NodeId := String × String

/-- Modelled from the spec: ProfileActivationRule (spec §3) of the missing
resolver sources — `{ profileName, triggeredBy }`, empty `triggeredBy` meaning
unconditional activation. -/
structure ProfileActivationRule where
  profileName : String
  triggeredBy : List String
  deriving DecidableEq, Repr

/-- Modelled from the spec: RequirementEdge (spec §3) — one entry of a
`requires` stanza; `targetPath = none` means the same document as the
referencing node. -/
structure RequirementEdge where
  targetPath : Option String
  targetNames : List String
  activationRules : List ProfileActivationRule
  deriving DecidableEq, Repr

/-- Modelled from the spec: the opaque payload attached to a node (spec §3),
concretised after the test corpus: a base artifact image, a payload-internal
path (the artifact workspace) and the profile-variant table. -/
structure Payload where
  image : String
  workspace : String
  variants : List (String × String)
  deriving DecidableEq, Repr

/-- Modelled from the spec: ConfigurationNode (spec §3) — one named
configuration declaration inside a document. -/
structure ConfigurationNode where
  name : String
  requirements : List RequirementEdge
  payload : Payload
  deriving DecidableEq, Repr

/-- Modelled from the spec: an emitted node of the ResolvedSet (spec §3) —
a configuration together with its resolved active-profile set and the payload
variant attached at emission time. -/
structure ResolvedNode where
  docPath : String
  name : String
  requirements : List RequirementEdge
  activeProfiles : List String
  payload : Payload
  deriving DecidableEq, Repr

/-- Identity of an emitted node. -/
def rid (r : ResolvedNode) : NodeId := (r.docPath, r.name)

/-- Modelled from the spec: the Document Store interface (spec §2, §6) — a
memoized, stable map from canonical document path to the ordered node list
declared in that document. -/
abbrev DocumentStore := List (String × List ConfigurationNode)

/-- Modelled from the spec: the Path Resolver interface (spec §2, §6) — a pure
function from (base document path, relative path) to the canonical absolute
target path. -/
abbrev PathResolver := String → String → String

/-- Document Store lookup (`Load`): first entry for the given path. -/
def load : DocumentStore → String → Option (List ConfigurationNode)
  | [], _ => none
  | (p, doc) :: rest, q => if p = q then some doc else load rest q

/-- Locate the target node of a requirement by name inside a loaded document. -/
def findNode : List ConfigurationNode → String → Option ConfigurationNode
  | [], _ => none
  | n :: rest, nm => if n.name = nm then some n else findNode rest nm

/-- Canonical target path of a requirement edge: absent `targetPath` means the
referencing node's own document (spec §3). -/
def edgeTargetPath (pr : PathResolver) (path : String) (e : RequirementEdge) : String :=
  match e.targetPath with
  | none => path
  | some rel => pr path rel

/-- Target identities named by one requirement edge. -/
def edgeTargets (pr : PathResolver) (path : String) (e : RequirementEdge) : List NodeId :=
  e.targetNames.map (fun nm => (edgeTargetPath pr path e, nm))

/-- Target identities named by a list of requirement edges, in order. -/
def targetsOfEdges (pr : PathResolver) (path : String) (edges : List RequirementEdge) : List NodeId :=
  edges.flatMap (edgeTargets pr path)

/-- Modelled from the spec: the Profile Activation Evaluator (spec §4.2) of the
missing resolver sources — `Activate(currentProfiles, rules)`; the next profile
set starts empty and each rule is evaluated against the same `currentProfiles`
snapshot. -/
def activate (currentProfiles : List String) : List ProfileActivationRule → List String
  | [] => []
  | r :: rest =>
    if r.triggeredBy.isEmpty || r.triggeredBy.any (fun t => currentProfiles.contains t)
    then r.profileName :: activate currentProfiles rest
    else activate currentProfiles rest

/-- Variant lookup in the payload's profile-variant table. -/
def lookupVariant : List (String × String) → String → Option String
  | [], _ => none
  | (k, v) :: rest, pf => if k = pf then some v else lookupVariant rest pf

/-- Modelled from the spec: the external variant-selection collaborator
(spec §6, payload boundary) — for the given active profile set it selects which
payload variant is visible, touching nothing but the variant field. -/
def applyProfiles (p : Payload) (profiles : List String) : Payload :=
  profiles.foldl
    (fun acc pf =>
      match lookupVariant acc.variants pf with
      | some img => { acc with image := img }
      | none => acc)
    p

/-- Tri-state visitation status (spec §3 ResolvedSet): `unvisited` is the
absence of an entry in the visitation map. -/
inductive VisitStatus where
  | inProgress
  | done
  deriving DecidableEq, Repr

/-- Status lookup in the visitation map (most recent entry wins). -/
def statusOf : List (NodeId × VisitStatus) → NodeId → Option VisitStatus
  | [], _ => none
  | (k, st) :: rest, id => if k = id then some st else statusOf rest id

/-- Modelled from the spec: the resolver's working state (spec §3 ResolvedSet):
the visitation map plus the insertion-ordered output. Entries are prepended and
never removed; marking done shadows the in-progress entry. -/
structure ResolveState where
  visited : List (NodeId × VisitStatus)
  output : List ResolvedNode
  deriving Repr

/-- Resolution error taxonomy (spec §7) plus fuel exhaustion of the embedding's
step-indexed recursion. -/
inductive ResolveError where
  | documentLoad (path : String)
  | nameNotFound (path name : String)
  | selectionNotFound (requested : List String)
  | outOfFuel
  deriving DecidableEq, Repr

/-- The node emitted when a visitation completes (spec §4.1 step 3, last item):
payload variant selection happens at the moment the node is marked done. -/
def mkResolved (path : String) (node : ConfigurationNode) (profiles : List String) : ResolvedNode :=
  { docPath := path
    name := node.name
    requirements := node.requirements
    activeProfiles := profiles
    payload := applyProfiles node.payload profiles }

/-- Modelled from the spec: the per-edge target loop of the Dependency Graph
Resolver (spec §4.1 step 3): locate each named target in the loaded target
document and recurse; a missing name is a fatal lookup error. -/
def goNames (visit : String → ConfigurationNode → List String → ResolveState →
    Except ResolveError ResolveState)
    (tpath : String) (profs : List String) (doc : List ConfigurationNode) :
    List String → ResolveState → Except ResolveError ResolveState
  | [], s => .ok s
  | nm :: rest, s =>
    match findNode doc nm with
    | none => .error (.nameNotFound tpath nm)
    | some tnode =>
      match visit tpath tnode profs s with
      | .error e => .error e
      | .ok s' => goNames visit tpath profs doc rest s'

/-- Modelled from the spec: the requirement-edge loop of the Dependency Graph
Resolver (spec §4.1 step 3): resolve the target path, load the target document
(fatal error when absent), compute the target profile set with the Profile
Activation Evaluator from the current node's active set, and visit each named
target in order. -/
def goEdges (store : DocumentStore) (pr : PathResolver)
    (visit : String → ConfigurationNode → List String → ResolveState →
      Except ResolveError ResolveState)
    (path : String) (profiles : List String) :
    List RequirementEdge → ResolveState → Except ResolveError ResolveState
  | [], s => .ok s
  | e :: rest, s =>
    match load store (edgeTargetPath pr path e) with
    | none => .error (.documentLoad (edgeTargetPath pr path e))
    | some doc =>
      match goNames visit (edgeTargetPath pr path e) (activate profiles e.activationRules) doc
          e.targetNames s with
      | .error err => .error err
      | .ok s' => goEdges store pr visit path profiles rest s'

/-- Modelled from the spec: `visit(node, profiles)` of the Dependency Graph
Resolver (spec §4.1 step 3), the core absent from the sources at hand: a done
node returns immediately, an in-progress node (cycle) returns immediately
without marking or emitting, otherwise the node is marked in-progress, its
edges are traversed in order, and it is finally marked done and appended to the
ResolvedSet. The step index only bounds recursion depth. -/
def visitNode (store : DocumentStore) (pr : PathResolver) :
    Nat → String → ConfigurationNode → List String → ResolveState →
    Except ResolveError ResolveState
  | 0, _, _, _, _ => .error .outOfFuel
  | fuel + 1, path, node, profiles, s =>
    match statusOf s.visited (path, node.name) with
    | some .done => .ok s
    | some .inProgress => .ok s
    | none =>
      match goEdges store pr (fun p n pf st => visitNode store pr fuel p n pf st)
          path profiles node.requirements
          ⟨((path, node.name), .inProgress) :: s.visited, s.output⟩ with
      | .error e => .error e
      | .ok s2 =>
        .ok ⟨((path, node.name), .done) :: s2.visited,
             s2.output ++ [mkResolved path node profiles]⟩

/-- Modelled from the spec: step 2 of `Resolve` (spec §4.1) — visit each root
node in declaration order with the caller-supplied global active-profile set. -/
def visitRoots (store : DocumentStore) (pr : PathResolver) (fuel : Nat)
    (rootPath : String) (globalProfiles : List String) :
    List ConfigurationNode → ResolveState → Except ResolveError ResolveState
  | [], s => .ok s
  | n :: rest, s =>
    match visitNode store pr fuel rootPath n globalProfiles s with
    | .error e => .error e
    | .ok s' => visitRoots store pr fuel rootPath globalProfiles rest s'

/-- Modelled from the spec: phase one of `Resolve` (spec §4.1 steps 1-3) — load
the root document and visit its nodes, yielding the full ResolvedSet. -/
def resolveFullSet (store : DocumentStore) (pr : PathResolver) (fuel : Nat)
    (rootPath : String) (globalProfiles : List String) :
    Except ResolveError (List ResolvedNode) :=
  match load store rootPath with
  | none => .error (.documentLoad rootPath)
  | some rootDoc =>
    match visitRoots store pr fuel rootPath globalProfiles rootDoc ⟨[], []⟩ with
    | .error e => .error e
    | .ok s => .ok s.output

/-- Dependencies recorded on the resolved nodes carrying a given identity
(spec §4.3: the closure uses the requirement edges already recorded on each
node). -/
def depsOf (pr : PathResolver) (resolved : List ResolvedNode) (id : NodeId) : List NodeId :=
  (resolved.filter (fun r => rid r = id)).flatMap
    (fun r => targetsOfEdges pr r.docPath r.requirements)

/-- One saturation round of the dependency closure: the not-yet-collected
direct dependencies of the current set. -/
def closureStepNew (pr : PathResolver) (resolved : List ResolvedNode)
    (cur : List NodeId) : List NodeId :=
  ((cur.flatMap (depsOf pr resolved)).filter (fun id => ¬ id ∈ cur)).dedup

/-- Saturating iteration of the dependency closure. -/
def closureIter (pr : PathResolver) (resolved : List ResolvedNode) :
    Nat → List NodeId → List NodeId
  | 0, cur => cur
  | k + 1, cur =>
    let new := closureStepNew pr resolved cur
    if new = [] then cur else closureIter pr resolved k (cur ++ new)

/-- Identity universe of the closure computation: every resolved identity and
every identity any resolved node refers to. -/
def closureUniverse (pr : PathResolver) (resolved : List ResolvedNode) : List NodeId :=
  resolved.map rid ++ resolved.flatMap (fun r => targetsOfEdges pr r.docPath r.requirements)

/-- Transitive dependency closure of the matched identities inside the
resolved set. -/
def selectionClosure (pr : PathResolver) (resolved : List ResolvedNode)
    (seeds : List NodeId) : List NodeId :=
  closureIter pr resolved ((closureUniverse pr resolved).length + 1) seeds.dedup

/-- Modelled from the spec: the Selection Filter (spec §4.3) of the missing
resolver sources — keep the nodes whose name was requested plus their
transitive dependency closure, preserving the original relative order; no match
at all is a fatal selection error naming the requested set. -/
def selectionFilter (pr : PathResolver) (requested : List String)
    (resolved : List ResolvedNode) : Except ResolveError (List ResolvedNode) :=
  if (resolved.filter (fun r => r.name ∈ requested)) = [] then
    .error (.selectionNotFound requested)
  else
    .ok (resolved.filter (fun r => rid r ∈ selectionClosure pr resolved
      ((resolved.filter (fun r => r.name ∈ requested)).map rid)))

/-- All identities declared by the store. -/
def storeIds (store : DocumentStore) : List NodeId :=
  store.flatMap (fun pd => pd.2.map (fun n => (pd.1, n.name)))

/-- Canonical recursion budget: one level per declared identity plus one. -/
def defaultFuel (store : DocumentStore) : Nat := (storeIds store).length + 1

/-- Modelled from the spec: the resolver public entry point (spec §4.1, §6)
`Resolve(rootDocumentPath, activeProfiles, nameFilter)` — resolve the full
reachable set, then apply the Selection Filter when the name filter is
non-empty. -/
def resolveConfigs (store : DocumentStore) (pr : PathResolver) (rootPath : String)
    (globalProfiles nameFilter : List String) : Except ResolveError (List ResolvedNode) :=
  match resolveFullSet store pr (defaultFuel store) rootPath globalProfiles with
  | .error e => .error e
  | .ok full =>
    if nameFilter = [] then .ok full
    else selectionFilter pr nameFilter full

/-- Modelled from the spec: the Go-shaped entry point
`getAllConfigs(opts) → (orderedConfigurations, error)` of the missing
`cmd/skaffold/app/cmd/parse_config.go` — on error the configuration list is
empty, resolution being all-or-nothing (spec §7). -/
def getAllConfigs (store : DocumentStore) (pr : PathResolver) (rootPath : String)
    (globalProfiles nameFilter : List String) :
    List ResolvedNode × Option ResolveError :=
  match resolveConfigs store pr rootPath globalProfiles nameFilter with
  | .ok l => (l, none)
  | .error e => ([], some e)

end Skaffold

namespace Skaffold

/-- Payload shaped after the test template: base image plus `pf0`/`pf1`
variants obtained by prefixing the image name. -/
def mkPayload (img ws : String) : Payload :=
  { image := img, workspace := ws, variants := [("pf0", "pf0" ++ img), ("pf1", "pf1" ++ img)] }

/-- Helper to declare a configuration node of the example scenarios. -/
def mkNode (nm img ws : String) (reqs : List RequirementEdge) : ConfigurationNode :=
  { name := nm, requirements := reqs, payload := mkPayload img ws }

/-- Helper to declare a requirement edge of the example scenarios. -/
def mkEdge (tp : Option String) (nms : List String)
    (rules : List ProfileActivationRule) : RequirementEdge :=
  { targetPath := tp, targetNames := nms, activationRules := rules }

/-- Path resolver of the example scenarios: target paths are given in
canonical form already. -/
def examplePr : PathResolver := fun _ rel => rel

/-- The literal example graph (spec §8): `cfg00` requires `(doc1, [cfg10])`,
`cfg01` has no requirements, `doc1`'s `cfg10` requires `(doc2, [cfg21])`,
`doc2`'s `cfg21` has no requirements. -/
def exampleStore : DocumentStore :=
  [("root", [mkNode "cfg00" "image00" "." [mkEdge (some "doc1") ["cfg10"] []],
             mkNode "cfg01" "image01" "." []]),
   ("doc1", [mkNode "cfg10" "image10" "doc1" [mkEdge (some "doc2") ["cfg21"] []]]),
   ("doc2", [mkNode "cfg21" "image21" "doc2" []])]

/-- Expected resolution order of the literal example with no profiles and no
filter: `cfg21, cfg10, cfg00, cfg01`. -/
def exampleExpected : List ResolvedNode :=
  [{ docPath := "doc2", name := "cfg21", requirements := [],
     activeProfiles := [], payload := mkPayload "image21" "doc2" },
   { docPath := "doc1", name := "cfg10", requirements := [mkEdge (some "doc2") ["cfg21"] []],
     activeProfiles := [], payload := mkPayload "image10" "doc1" },
   { docPath := "root", name := "cfg00", requirements := [mkEdge (some "doc1") ["cfg10"] []],
     activeProfiles := [], payload := mkPayload "image00" "." },
   { docPath := "root", name := "cfg01", requirements := [],
     activeProfiles := [], payload := mkPayload "image01" "." }]

/-- The cycle scenario (spec §8): as the literal example, but `cfg21`
additionally requires `(rootDoc, [cfg00])`, closing the cycle
`cfg00 → cfg10 → cfg21 → cfg00`. -/
def cycleStore : DocumentStore :=
  [("root", [mkNode "cfg00" "image00" "." [mkEdge (some "doc1") ["cfg10"] []],
             mkNode "cfg01" "image01" "." []]),
   ("doc1", [mkNode "cfg10" "image10" "doc1" [mkEdge (some "doc2") ["cfg21"] []]]),
   ("doc2", [mkNode "cfg21" "image21" "doc2" [mkEdge (some "root") ["cfg00"] []]])]

/-- Expected resolution of the cycle scenario: the same four entries, the
cycle edge absorbed. -/
def cycleExpected : List ResolvedNode :=
  [{ docPath := "doc2", name := "cfg21", requirements := [mkEdge (some "root") ["cfg00"] []],
     activeProfiles := [], payload := mkPayload "image21" "doc2" },
   { docPath := "doc1", name := "cfg10", requirements := [mkEdge (some "doc2") ["cfg21"] []],
     activeProfiles := [], payload := mkPayload "image10" "doc1" },
   { docPath := "root", name := "cfg00", requirements := [mkEdge (some "doc1") ["cfg10"] []],
     activeProfiles := [], payload := mkPayload "image00" "." },
   { docPath := "root", name := "cfg01", requirements := [],
     activeProfiles := [], payload := mkPayload "image01" "." }]

/-- The self-dependency scenario (test corpus): `cfg00` requires its sibling
`cfg01` through an edge with no `targetPath`, and `(doc2, [cfg21])`. -/
def selfStore : DocumentStore :=
  [("root", [mkNode "cfg00" "image00" "."
               [mkEdge none ["cfg01"] [], mkEdge (some "doc2") ["cfg21"] []],
             mkNode "cfg01" "image01" "." []]),
   ("doc2", [mkNode "cfg21" "image21" "doc2" []])]

/-- Expected resolution of the self-dependency scenario: the sibling `cfg01`
first, then `cfg21`, then `cfg00`; `cfg01` is not re-emitted at its own root
position. -/
def selfExpected : List ResolvedNode :=
  [{ docPath := "root", name := "cfg01", requirements := [],
     activeProfiles := [], payload := mkPayload "image01" "." },
   { docPath := "doc2", name := "cfg21", requirements := [],
     activeProfiles := [], payload := mkPayload "image21" "doc2" },
   { docPath := "root", name := "cfg00",
     requirements := [mkEdge none ["cfg01"] [], mkEdge (some "doc2") ["cfg21"] []],
     activeProfiles := [], payload := mkPayload "image00" "." }]

/-- The filter scenario (test corpus): two root configurations pulling in two
distinct dependencies of `doc1`, both of which require `(doc2, [cfg21])`. -/
def filterStore : DocumentStore :=
  [("root", [mkNode "cfg00" "image00" "." [mkEdge (some "doc1") ["cfg10"] []],
             mkNode "cfg01" "image01" "." [mkEdge (some "doc1") ["cfg11"] []]]),
   ("doc1", [mkNode "cfg10" "image10" "doc1" [mkEdge (some "doc2") ["cfg21"] []],
             mkNode "cfg11" "image11" "doc1" [mkEdge (some "doc2") ["cfg21"] []]]),
   ("doc2", [mkNode "cfg21" "image21" "doc2" []])]

/-- Expected output of the filter scenario restricted to `cfg11`: exactly
`cfg21, cfg11`. -/
def filterExpected : List ResolvedNode :=
  [{ docPath := "doc2", name := "cfg21", requirements := [],
     activeProfiles := [], payload := mkPayload "image21" "doc2" },
   { docPath := "doc1", name := "cfg11", requirements := [mkEdge (some "doc2") ["cfg21"] []],
     activeProfiles := [], payload := mkPayload "image11" "doc1" }]

/-- Expected resolution of the literal example with global profiles `[pf0]`:
only the root document's own nodes see the global set. -/
def profileExpected : List ResolvedNode :=
  [{ docPath := "doc2", name := "cfg21", requirements := [],
     activeProfiles := [], payload := mkPayload "image21" "doc2" },
   { docPath := "doc1", name := "cfg10", requirements := [mkEdge (some "doc2") ["cfg21"] []],
     activeProfiles := [], payload := mkPayload "image10" "doc1" },
   { docPath := "root", name := "cfg00", requirements := [mkEdge (some "doc1") ["cfg10"] []],
     activeProfiles := ["pf0"],
     payload := { image := "pf0image00", workspace := ".",
                  variants := [("pf0", "pf0image00"), ("pf1", "pf1image00")] } },
   { docPath := "root", name := "cfg01", requirements := [],
     activeProfiles := ["pf0"],
     payload := { image := "pf0image01", workspace := ".",
                  variants := [("pf0", "pf0image01"), ("pf1", "pf1image01")] } }]

end Skaffold

namespace Skaffold

/-! ### State predicates -/

/-- The identity is marked done in the visitation map. -/
def isDone (s : ResolveState) (id : NodeId) : Prop := statusOf s.visited id = some .done

/-- The identity is marked in-progress in the visitation map. -/
def isInProgress (s : ResolveState) (id : NodeId) : Prop :=
  statusOf s.visited id = some .inProgress

/-- The identity has any entry in the visitation map. -/
def seen (s : ResolveState) (id : NodeId) : Prop := statusOf s.visited id ≠ none

/-- Identities of the output, in emission order. -/
def outIds (s : ResolveState) : List NodeId := s.output.map rid

theorem statusOf_cons (k : NodeId) (st : VisitStatus) (m : List (NodeId × VisitStatus))
    (id : NodeId) :
    statusOf ((k, st) :: m) id = if k = id then some st else statusOf m id := rfl

theorem statusOf_append_none {ext m : List (NodeId × VisitStatus)} {id : NodeId}
    (h : statusOf (ext ++ m) id = none) : statusOf m id = none := by
  induction ext with
  | nil => exact h
  | cons e rest ih =>
    obtain ⟨k, st⟩ := e
    rw [List.cons_append, statusOf_cons] at h
    split at h
    · exact absurd h (by simp)
    · exact ih h

/-! ### Store lookup facts -/

theorem load_mem {store : DocumentStore} {p : String} {doc : List ConfigurationNode}
    (h : load store p = some doc) : (p, doc) ∈ store := by
  induction store with
  | nil => simp [load] at h
  | cons pd rest ih =>
    obtain ⟨q, d⟩ := pd
    rw [load] at h
    split at h
    · rename_i hq
      cases h
      subst hq
      exact List.mem_cons_self _ _
    · exact List.mem_cons_of_mem _ (ih h)

theorem findNode_mem {doc : List ConfigurationNode} {nm : String} {n : ConfigurationNode}
    (h : findNode doc nm = some n) : n ∈ doc ∧ n.name = nm := by
  induction doc with
  | nil => simp [findNode] at h
  | cons m rest ih =>
    rw [findNode] at h
    split at h
    · rename_i hq
      cases h
      exact ⟨List.mem_cons_self _ _, hq⟩
    · obtain ⟨h1, h2⟩ := ih h
      exact ⟨List.mem_cons_of_mem _ h1, h2⟩

theorem findNode_of_mem_nodup {doc : List ConfigurationNode} {n : ConfigurationNode}
    (hd : (doc.map ConfigurationNode.name).Nodup) (hm : n ∈ doc) :
    findNode doc n.name = some n := by
  induction doc with
  | nil => simp at hm
  | cons m rest ih =>
    rw [List.map_cons, List.nodup_cons] at hd
    rcases List.mem_cons.mp hm with h | h
    · subst h
      rw [findNode, if_pos rfl]
    · have hne : m.name ≠ n.name := by
        intro heq
        exact hd.1 (heq ▸ List.mem_map_of_mem ConfigurationNode.name h)
      rw [findNode, if_neg hne]
      exact ih hd.2 h

theorem mem_storeIds {store : DocumentStore} {p : String} {doc : List ConfigurationNode}
    {n : ConfigurationNode} (hl : load store p = some doc) (hn : n ∈ doc) :
    (p, n.name) ∈ storeIds store := by
  have hmem := load_mem hl
  simp only [storeIds, List.mem_flatMap]
  exact ⟨(p, doc), hmem, List.mem_map_of_mem _ hn⟩

/-- All profile names any activation rule of the store can ever introduce. -/
def storeRuleNames (store : DocumentStore) : List String :=
  store.flatMap (fun pd => pd.2.flatMap (fun n =>
    n.requirements.flatMap (fun e => e.activationRules.map (fun r => r.profileName))))

theorem mem_storeRuleNames {store : DocumentStore} {p : String}
    {doc : List ConfigurationNode} {n : ConfigurationNode} {e : RequirementEdge}
    {rule : ProfileActivationRule} (hl : load store p = some doc) (hn : n ∈ doc)
    (he : e ∈ n.requirements) (hr : rule ∈ e.activationRules) :
    rule.profileName ∈ storeRuleNames store := by
  have hmem := load_mem hl
  simp only [storeRuleNames, List.mem_flatMap, List.mem_map]
  exact ⟨(p, doc), hmem, n, hn, e, he, rule, hr, rfl⟩

/-! ### Profile activation facts -/

theorem activate_subset {cur : List String} {rules : List ProfileActivationRule} :
    ∀ p ∈ activate cur rules, ∃ r ∈ rules, r.profileName = p := by
  induction rules with
  | nil => simp [activate]
  | cons r rest ih =>
    intro p hp
    rw [activate] at hp
    split at hp
    · rcases List.mem_cons.mp hp with h | h
      · exact ⟨r, List.mem_cons_self _ _, h.symm⟩
      · obtain ⟨r', hr', hname⟩ := ih p h
        exact ⟨r', List.mem_cons_of_mem _ hr', hname⟩
    · obtain ⟨r', hr', hname⟩ := ih p hp
      exact ⟨r', List.mem_cons_of_mem _ hr', hname⟩

/-! ### Payload frame facts -/

theorem applyProfiles_cons (p : Payload) (pf : String) (rest : List String) :
    applyProfiles p (pf :: rest) =
      applyProfiles
        (match lookupVariant p.variants pf with
         | some img => { p with image := img }
         | none => p) rest := rfl

theorem applyProfiles_workspace (p : Payload) (profs : List String) :
    (applyProfiles p profs).workspace = p.workspace := by
  induction profs generalizing p with
  | nil => rfl
  | cons pf rest ih =>
    rw [applyProfiles_cons]
    cases hv : lookupVariant p.variants pf with
    | none => exact ih p
    | some img => exact ih _

theorem applyProfiles_variants (p : Payload) (profs : List String) :
    (applyProfiles p profs).variants = p.variants := by
  induction profs generalizing p with
  | nil => rfl
  | cons pf rest ih =>
    rw [applyProfiles_cons]
    cases hv : lookupVariant p.variants pf with
    | none => exact ih p
    | some img => exact ih _

end Skaffold

namespace Skaffold

/-! ### State evolution across completed calls

Every call of the resolver that returns successfully only extends the
visitation map and the output, never turns a done entry back, and leaves the
set of in-progress identities exactly as it found it. -/

/-- State evolution relation between the state a call receives and the state it
returns. -/
def SE (s s' : ResolveState) : Prop :=
  (∃ ext, s'.visited = ext ++ s.visited) ∧
  (∃ out, s'.output = s.output ++ out) ∧
  (∀ id, statusOf s.visited id = some .done → statusOf s'.visited id = some .done) ∧
  (∀ id, statusOf s'.visited id = some .inProgress ↔ statusOf s.visited id = some .inProgress)

theorem SE.refl (s : ResolveState) : SE s s :=
  ⟨⟨[], rfl⟩, ⟨[], by simp⟩, fun _ h => h, fun _ => Iff.rfl⟩

theorem SE.trans {s1 s2 s3 : ResolveState} (h12 : SE s1 s2) (h23 : SE s2 s3) : SE s1 s3 := by
  obtain ⟨⟨e1, he1⟩, ⟨o1, ho1⟩, hd1, hp1⟩ := h12
  obtain ⟨⟨e2, he2⟩, ⟨o2, ho2⟩, hd2, hp2⟩ := h23
  exact ⟨⟨e2 ++ e1, by rw [he2, he1, List.append_assoc]⟩,
         ⟨o1 ++ o2, by rw [ho2, ho1, List.append_assoc]⟩,
         fun id h => hd2 id (hd1 id h), fun id => (hp2 id).trans (hp1 id)⟩

theorem SE.done_mono {s s' : ResolveState} (h : SE s s') {id : NodeId}
    (hd : isDone s id) : isDone s' id := h.2.2.1 id hd

theorem SE.inProgress_iff {s s' : ResolveState} (h : SE s s') (id : NodeId) :
    isInProgress s' id ↔ isInProgress s id := h.2.2.2 id

theorem SE.none_mono {s s' : ResolveState} (h : SE s s') {id : NodeId}
    (hn : statusOf s'.visited id = none) : statusOf s.visited id = none := by
  obtain ⟨⟨ext, hext⟩, _, _, _⟩ := h
  rw [hext] at hn
  exact statusOf_append_none hn

theorem SE.seen_mono {s s' : ResolveState} (h : SE s s') {id : NodeId}
    (hs : seen s id) : seen s' id := fun hn => hs (h.none_mono hn)

theorem SE.output_prefix {s s' : ResolveState} (h : SE s s') :
    ∃ out, s'.output = s.output ++ out := h.2.1

theorem goNames_SE
    {visit : String → ConfigurationNode → List String → ResolveState →
      Except ResolveError ResolveState}
    (hv : ∀ p n pf st st', visit p n pf st = .ok st' → SE st st')
    (tpath : String) (profs : List String) (doc : List ConfigurationNode) :
    ∀ names s s', goNames visit tpath profs doc names s = .ok s' → SE s s' := by
  intro names
  induction names with
  | nil =>
    intro s s' h
    rw [goNames] at h
    cases h
    exact SE.refl _
  | cons nm rest ih =>
    intro s s' h
    rw [goNames] at h
    cases hf : findNode doc nm with
    | none => rw [hf] at h; cases h
    | some tnode =>
      rw [hf] at h
      dsimp only at h
      cases hres : visit tpath tnode profs s with
      | error e => rw [hres] at h; cases h
      | ok s1 =>
        rw [hres] at h
        exact (hv _ _ _ _ _ hres).trans (ih s1 s' h)

theorem goEdges_SE {store : DocumentStore} {pr : PathResolver}
    {visit : String → ConfigurationNode → List String → ResolveState →
      Except ResolveError ResolveState}
    (hv : ∀ p n pf st st', visit p n pf st = .ok st' → SE st st')
    (path : String) (profiles : List String) :
    ∀ edges s s', goEdges store pr visit path profiles edges s = .ok s' → SE s s' := by
  intro edges
  induction edges with
  | nil =>
    intro s s' h
    rw [goEdges] at h
    cases h
    exact SE.refl _
  | cons e rest ih =>
    intro s s' h
    rw [goEdges] at h
    cases hl : load store (edgeTargetPath pr path e) with
    | none => rw [hl] at h; cases h
    | some doc =>
      rw [hl] at h
      dsimp only at h
      cases hgn : goNames visit (edgeTargetPath pr path e) (activate profiles e.activationRules)
          doc e.targetNames s with
      | error err => rw [hgn] at h; cases h
      | ok s1 =>
        rw [hgn] at h
        exact (goNames_SE hv _ _ _ _ _ _ hgn).trans (ih s1 s' h)

theorem visitNode_SE (store : DocumentStore) (pr : PathResolver) :
    ∀ fuel path node profiles s s',
      visitNode store pr fuel path node profiles s = .ok s' → SE s s' := by
  intro fuel
  induction fuel with
  | zero =>
    intro path node profiles s s' h
    rw [visitNode] at h
    cases h
  | succ fuel ih =>
    intro path node profiles s s' h
    rw [visitNode] at h
    cases hst : statusOf s.visited (path, node.name) with
    | some st =>
      rw [hst] at h
      cases st
      · cases h; exact SE.refl _
      · cases h; exact SE.refl _
    | none =>
      rw [hst] at h
      cases hge : goEdges store pr (fun p n pf st => visitNode store pr fuel p n pf st)
          path profiles node.requirements
          ⟨((path, node.name), .inProgress) :: s.visited, s.output⟩ with
      | error e => rw [hge] at h; cases h
      | ok s2 =>
        rw [hge] at h
        cases h
        have hse12 : SE ⟨((path, node.name), .inProgress) :: s.visited, s.output⟩ s2 :=
          goEdges_SE (fun p n pf st st' hh => ih p n pf st st' hh) path profiles _ _ _ hge
        obtain ⟨⟨ext, hext⟩, ⟨out, hout⟩, hdone, hprog⟩ := hse12
        refine ⟨⟨((path, node.name), .done) :: ext ++ [((path, node.name), .inProgress)],
                 by simp [hext]⟩,
                ⟨out ++ [mkResolved path node profiles], by simp [hout]⟩, ?_, ?_⟩
        · intro id hd
          have hne : (path, node.name) ≠ id := by
            intro heq
            rw [heq] at hst
            rw [hst] at hd
            cases hd
          show statusOf (((path, node.name), VisitStatus.done) :: s2.visited) id = some .done
          rw [statusOf_cons, if_neg hne]
          have h1 : statusOf (((path, node.name), VisitStatus.inProgress) :: s.visited) id
              = some .done := by
            rw [statusOf_cons, if_neg hne]; exact hd
          exact hdone id h1
        · intro id
          show statusOf (((path, node.name), VisitStatus.done) :: s2.visited) id
              = some .inProgress ↔ _
          rw [statusOf_cons]
          by_cases hid : (path, node.name) = id
          · rw [if_pos hid]
            constructor
            · intro hc; cases hc
            · intro hc
              rw [← hid] at hc
              rw [hst] at hc
              cases hc
          · rw [if_neg hid]
            have := hprog id
            rw [statusOf_cons, if_neg hid] at this
            exact this

theorem visitRoots_SE (store : DocumentStore) (pr : PathResolver) (fuel : Nat)
    (rootPath : String) (g : List String) :
    ∀ nodes s s', visitRoots store pr fuel rootPath g nodes s = .ok s' → SE s s' := by
  intro nodes
  induction nodes with
  | nil =>
    intro s s' h
    rw [visitRoots] at h
    cases h
    exact SE.refl _
  | cons n rest ih =>
    intro s s' h
    rw [visitRoots] at h
    cases hres : visitNode store pr fuel rootPath n g s with
    | error e => rw [hres] at h; cases h
    | ok s1 =>
      rw [hres] at h
      exact (visitNode_SE store pr fuel rootPath n g s s1 hres).trans (ih s1 s' h)

end Skaffold

namespace Skaffold

/-! ### Core invariant: dedup, done-output correspondence, provenance, scoping -/

/-- The visited (path, node) pair is a declaration of the store. -/
def NodeFromStore (store : DocumentStore) (path : String) (node : ConfigurationNode) : Prop :=
  ∃ doc, load store path = some doc ∧ node ∈ doc

/-- An emitted node is a store declaration whose payload went through variant
selection for exactly the emitted active-profile set. -/
def EmittedFromStore (store : DocumentStore) (r : ResolvedNode) : Prop :=
  ∃ doc n, load store r.docPath = some doc ∧ n ∈ doc ∧ n.name = r.name ∧
    r.requirements = n.requirements ∧ r.payload = applyProfiles n.payload r.activeProfiles

/-- Invariant carried by every intermediate state of a resolution run. -/
structure CoreInv (store : DocumentStore) (rootPath : String) (s : ResolveState) : Prop where
  nodup : (outIds s).Nodup
  doneIff : ∀ id, isDone s id ↔ id ∈ outIds s
  fromStore : ∀ r ∈ s.output, EmittedFromStore store r
  profScoped : ∀ r ∈ s.output, r.docPath ≠ rootPath →
    r.activeProfiles ⊆ storeRuleNames store

theorem coreInv_initial (store : DocumentStore) (rootPath : String) :
    CoreInv store rootPath ⟨[], []⟩ := by
  refine ⟨by simp [outIds], fun id => ?_, by simp, by simp⟩
  simp [isDone, outIds, statusOf]

theorem goNames_core {store : DocumentStore} {rootPath : String}
    {visit : String → ConfigurationNode → List String → ResolveState →
      Except ResolveError ResolveState}
    (hv : ∀ p n pf st st', NodeFromStore store p n →
      (pf ⊆ storeRuleNames store ∨ p = rootPath) →
      CoreInv store rootPath st → visit p n pf st = .ok st' → CoreInv store rootPath st')
    (tpath : String) (profs : List String) (doc : List ConfigurationNode)
    (hdoc : load store tpath = some doc)
    (hprofs : profs ⊆ storeRuleNames store ∨ tpath = rootPath) :
    ∀ names s s', CoreInv store rootPath s →
      goNames visit tpath profs doc names s = .ok s' → CoreInv store rootPath s' := by
  intro names
  induction names with
  | nil =>
    intro s s' hc h
    rw [goNames] at h
    cases h
    exact hc
  | cons nm rest ih =>
    intro s s' hc h
    rw [goNames] at h
    cases hf : findNode doc nm with
    | none => rw [hf] at h; cases h
    | some tnode =>
      rw [hf] at h
      dsimp only at h
      cases hres : visit tpath tnode profs s with
      | error e => rw [hres] at h; cases h
      | ok s1 =>
        rw [hres] at h
        have hnfs : NodeFromStore store tpath tnode := ⟨doc, hdoc, (findNode_mem hf).1⟩
        exact ih s1 s' (hv _ _ _ _ _ hnfs hprofs hc hres) h

theorem goEdges_core {store : DocumentStore} {pr : PathResolver} {rootPath : String}
    {visit : String → ConfigurationNode → List String → ResolveState →
      Except ResolveError ResolveState}
    (hv : ∀ p n pf st st', NodeFromStore store p n →
      (pf ⊆ storeRuleNames store ∨ p = rootPath) →
      CoreInv store rootPath st → visit p n pf st = .ok st' → CoreInv store rootPath st')
    (path : String) (profiles : List String) :
    ∀ edges s s',
      (∀ e ∈ edges, ∀ rule ∈ e.activationRules, rule.profileName ∈ storeRuleNames store) →
      CoreInv store rootPath s →
      goEdges store pr visit path profiles edges s = .ok s' → CoreInv store rootPath s' := by
  intro edges
  induction edges with
  | nil =>
    intro s s' _ hc h
    rw [goEdges] at h
    cases h
    exact hc
  | cons e rest ih =>
    intro s s' hrules hc h
    rw [goEdges] at h
    cases hl : load store (edgeTargetPath pr path e) with
    | none => rw [hl] at h; cases h
    | some doc =>
      rw [hl] at h
      dsimp only at h
      cases hgn : goNames visit (edgeTargetPath pr path e) (activate profiles e.activationRules)
          doc e.targetNames s with
      | error err => rw [hgn] at h; cases h
      | ok s1 =>
        rw [hgn] at h
        have hsub : activate profiles e.activationRules ⊆ storeRuleNames store := by
          intro p hp
          obtain ⟨r, hr, hname⟩ := activate_subset p hp
          exact hname ▸ hrules e (List.mem_cons_self _ _) r hr
        have hc1 : CoreInv store rootPath s1 :=
          goNames_core hv _ _ doc hl (Or.inl hsub) e.targetNames s s1 hc hgn
        exact ih s1 s' (fun e' he' => hrules e' (List.mem_cons_of_mem _ he')) hc1 h

theorem visitNode_core (store : DocumentStore) (pr : PathResolver) (rootPath : String) :
    ∀ fuel path node profiles s s', NodeFromStore store path node →
      (profiles ⊆ storeRuleNames store ∨ path = rootPath) →
      CoreInv store rootPath s →
      visitNode store pr fuel path node profiles s = .ok s' →
      CoreInv store rootPath s' := by
  intro fuel
  induction fuel with
  | zero =>
    intro path node profiles s s' _ _ _ h
    rw [visitNode] at h
    cases h
  | succ fuel ih =>
    intro path node profiles s s' hnfs hprofs hc h
    rw [visitNode] at h
    cases hst : statusOf s.visited (path, node.name) with
    | some st =>
      rw [hst] at h
      cases st
      · cases h; exact hc
      · cases h; exact hc
    | none =>
      rw [hst] at h
      cases hge : goEdges store pr (fun p n pf st => visitNode store pr fuel p n pf st)
          path profiles node.requirements
          ⟨((path, node.name), .inProgress) :: s.visited, s.output⟩ with
      | error e => rw [hge] at h; cases h
      | ok s2 =>
        rw [hge] at h
        cases h
        obtain ⟨doc, hdoc, hmem⟩ := hnfs
        have hc1 : CoreInv store rootPath
            ⟨((path, node.name), .inProgress) :: s.visited, s.output⟩ := by
          refine ⟨hc.nodup, fun id => ?_, hc.fromStore, hc.profScoped⟩
          show statusOf _ id = some .done ↔ _
          rw [statusOf_cons]
          by_cases hid : (path, node.name) = id
          · rw [if_pos hid]
            subst hid
            constructor
            · intro hcontra; cases hcontra
            · intro hmemout
              exact absurd ((hc.doneIff _).mpr hmemout)
                (by simp [isDone, hst])
          · rw [if_neg hid]
            exact hc.doneIff id
        have hrules : ∀ e ∈ node.requirements, ∀ rule ∈ e.activationRules,
            rule.profileName ∈ storeRuleNames store :=
          fun e he rule hr => mem_storeRuleNames hdoc hmem he hr
        have hc2 : CoreInv store rootPath s2 :=
          goEdges_core (fun p n pf st st' h1 h2 h3 h4 => ih p n pf st st' h1 h2 h3 h4)
            path profiles node.requirements _ s2 hrules hc1 hge
        have hse12 : SE ⟨((path, node.name), .inProgress) :: s.visited, s.output⟩ s2 :=
          goEdges_SE (fun p n pf st st' hh => visitNode_SE store pr fuel p n pf st st' hh)
            path profiles _ _ _ hge
        have hip2 : isInProgress s2 (path, node.name) := by
          refine (hse12.inProgress_iff _).mpr ?_
          show statusOf _ _ = some .inProgress
          rw [statusOf_cons, if_pos rfl]
        have hnotout : (path, node.name) ∉ outIds s2 := by
          intro hmemout
          have := (hc2.doneIff _).mpr hmemout
          rw [isDone] at this
          rw [isInProgress] at hip2
          rw [this] at hip2
          cases hip2
        have houtids : outIds ⟨((path, node.name), VisitStatus.done) :: s2.visited,
            s2.output ++ [mkResolved path node profiles]⟩
            = outIds s2 ++ [(path, node.name)] := by
          simp [outIds, rid, mkResolved]
        refine ⟨?_, fun id => ?_, ?_, ?_⟩
        · rw [houtids]
          rw [List.nodup_append]
          exact ⟨hc2.nodup, List.nodup_singleton _, by
            intro x hx hx2
            rw [List.mem_singleton] at hx2
            subst hx2
            exact hnotout hx⟩
        · rw [houtids]
          show statusOf _ id = some .done ↔ _
          rw [statusOf_cons]
          by_cases hid : (path, node.name) = id
          · rw [if_pos hid]
            simp [← hid]
          · rw [if_neg hid]
            rw [List.mem_append, List.mem_singleton]
            constructor
            · intro hd
              exact Or.inl ((hc2.doneIff id).mp hd)
            · intro hor
              rcases hor with hin | heq
              · exact (hc2.doneIff id).mpr hin
              · exact absurd heq.symm hid
        · intro r hr
          rw [List.mem_append, List.mem_singleton] at hr
          rcases hr with hin | heq
          · exact hc2.fromStore r hin
          · subst heq
            exact ⟨doc, node, hdoc, hmem, rfl, rfl, rfl⟩
        · intro r hr hne
          rw [List.mem_append, List.mem_singleton] at hr
          rcases hr with hin | heq
          · exact hc2.profScoped r hin hne
          · subst heq
            rcases hprofs with hsub | hroot
            · exact hsub
            · exact absurd hroot hne

theorem visitRoots_core (store : DocumentStore) (pr : PathResolver) (fuel : Nat)
    (rootPath : String) (g : List String) (rootDoc : List ConfigurationNode)
    (hroot : load store rootPath = some rootDoc) :
    ∀ nodes s s', (∀ n ∈ nodes, n ∈ rootDoc) → CoreInv store rootPath s →
      visitRoots store pr fuel rootPath g nodes s = .ok s' → CoreInv store rootPath s' := by
  intro nodes
  induction nodes with
  | nil =>
    intro s s' _ hc h
    rw [visitRoots] at h
    cases h
    exact hc
  | cons n rest ih =>
    intro s s' hmem hc h
    rw [visitRoots] at h
    cases hres : visitNode store pr fuel rootPath n g s with
    | error e => rw [hres] at h; cases h
    | ok s1 =>
      rw [hres] at h
      have hc1 : CoreInv store rootPath s1 :=
        visitNode_core store pr rootPath fuel rootPath n g s s1
          ⟨rootDoc, hroot, hmem n (List.mem_cons_self _ _)⟩ (Or.inr rfl) hc hres
      exact ih s1 s' (fun m hm => hmem m (List.mem_cons_of_mem _ hm)) hc1 h

theorem resolveFullSet_core {store : DocumentStore} {pr : PathResolver} {fuel : Nat}
    {rootPath : String} {g : List String} {L : List ResolvedNode}
    (h : resolveFullSet store pr fuel rootPath g = .ok L) :
    (L.map rid).Nodup ∧ (∀ r ∈ L, EmittedFromStore store r) ∧
    (∀ r ∈ L, r.docPath ≠ rootPath → r.activeProfiles ⊆ storeRuleNames store) := by
  rw [resolveFullSet] at h
  cases hl : load store rootPath with
  | none => rw [hl] at h; cases h
  | some rootDoc =>
    rw [hl] at h
    dsimp only at h
    cases hvr : visitRoots store pr fuel rootPath g rootDoc ⟨[], []⟩ with
    | error e => rw [hvr] at h; cases h
    | ok s =>
      rw [hvr] at h
      cases h
      have hc : CoreInv store rootPath s :=
        visitRoots_core store pr fuel rootPath g rootDoc hl rootDoc ⟨[], []⟩ s
          (fun _ hm => hm) (coreInv_initial store rootPath) hvr
      exact ⟨hc.nodup, hc.fromStore, hc.profScoped⟩

end Skaffold

namespace Skaffold

/-! ### Requirement graph, reachability, and the ordering invariant -/

/-- Direct requirement targets of an identity, read off the store. -/
def succsOf (store : DocumentStore) (pr : PathResolver) (id : NodeId) : List NodeId :=
  match load store id.1 with
  | none => []
  | some doc =>
    match findNode doc id.2 with
    | none => []
    | some n => targetsOfEdges pr id.1 n.requirements

/-- One requirement hop between identities. -/
def StepR (store : DocumentStore) (pr : PathResolver) (a b : NodeId) : Prop :=
  b ∈ succsOf store pr a

/-- Transitive requirement reachability between identities. -/
def Reaches (store : DocumentStore) (pr : PathResolver) : NodeId → NodeId → Prop :=
  Relation.ReflTransGen (StepR store pr)

/-- Well-formed store: no document declares two nodes of the same name. -/
def StoreNamesWF (store : DocumentStore) : Prop :=
  ∀ pd ∈ store, (pd.2.map ConfigurationNode.name).Nodup

/-- Every in-progress identity reaches the identity currently being visited:
the in-progress entries are exactly the depth-first call stack. -/
def StackOK (store : DocumentStore) (pr : PathResolver) (s : ResolveState)
    (cur : NodeId) : Prop :=
  ∀ id, isInProgress s id → Reaches store pr id cur

/-- Dependency-first ordering: each direct requirement of the node at position
`i` either appears strictly earlier or reaches back to that node (cycle edge). -/
def OrderOK (store : DocumentStore) (pr : PathResolver) (L : List ResolvedNode) : Prop :=
  ∀ (i : Nat) (hi : i < L.length), ∀ t ∈ succsOf store pr (rid L[i]),
    t ∈ (L.take i).map rid ∨ Reaches store pr t (rid L[i])

/-- Invariants of the traversal that mention the requirement graph. -/
structure GraphInv (store : DocumentStore) (pr : PathResolver) (s : ResolveState) : Prop where
  closedDone : ∀ id, isDone s id → ∀ t ∈ succsOf store pr id, seen s t
  ordered : OrderOK store pr s.output

theorem graphInv_initial (store : DocumentStore) (pr : PathResolver) :
    GraphInv store pr ⟨[], []⟩ := by
  constructor
  · intro id hd
    simp [isDone, statusOf] at hd
  · intro i hi
    simp at hi

theorem succsOf_eq {store : DocumentStore} {pr : PathResolver} (hwf : StoreNamesWF store)
    {path : String} {node : ConfigurationNode} {doc : List ConfigurationNode}
    (hdoc : load store path = some doc) (hmem : node ∈ doc) :
    succsOf store pr (path, node.name) = targetsOfEdges pr path node.requirements := by
  have hn : (doc.map ConfigurationNode.name).Nodup := hwf (path, doc) (load_mem hdoc)
  have hfn : findNode doc node.name = some node := findNode_of_mem_nodup hn hmem
  rw [succsOf]
  dsimp only
  rw [hdoc]
  dsimp only
  rw [hfn]

theorem mem_targetsOfEdges {pr : PathResolver} {path : String}
    {edges : List RequirementEdge} {e : RequirementEdge} {nm : String}
    (he : e ∈ edges) (hnm : nm ∈ e.targetNames) :
    (edgeTargetPath pr path e, nm) ∈ targetsOfEdges pr path edges := by
  simp only [targetsOfEdges, List.mem_flatMap]
  refine ⟨e, he, ?_⟩
  simp only [edgeTargets, List.mem_map]
  exact ⟨nm, hnm, rfl⟩

theorem targetsOfEdges_mem_inv {pr : PathResolver} {path : String}
    {edges : List RequirementEdge} {t : NodeId}
    (ht : t ∈ targetsOfEdges pr path edges) :
    ∃ e ∈ edges, ∃ nm ∈ e.targetNames, t = (edgeTargetPath pr path e, nm) := by
  simp only [targetsOfEdges, List.mem_flatMap, edgeTargets, List.mem_map] at ht
  obtain ⟨e, he, nm, hnm, heq2⟩ := ht
  exact ⟨e, he, nm, hnm, heq2.symm⟩

theorem seen_cons {m : List (NodeId × VisitStatus)} {a : NodeId} {st : VisitStatus}
    {id : NodeId} (h : statusOf m id ≠ none) : statusOf ((a, st) :: m) id ≠ none := by
  rw [statusOf_cons]
  by_cases hid : a = id
  · rw [if_pos hid]; simp
  · rw [if_neg hid]; exact h

theorem goNames_graph {store : DocumentStore} {pr : PathResolver} {rootPath : String}
    {visit : String → ConfigurationNode → List String → ResolveState →
      Except ResolveError ResolveState}
    (hvse : ∀ p n pf st st', visit p n pf st = .ok st' → SE st st')
    (hvc : ∀ p n pf st st', NodeFromStore store p n →
      (pf ⊆ storeRuleNames store ∨ p = rootPath) →
      CoreInv store rootPath st → visit p n pf st = .ok st' → CoreInv store rootPath st')
    (hv : ∀ p n pf st st', NodeFromStore store p n →
      (pf ⊆ storeRuleNames store ∨ p = rootPath) →
      CoreInv store rootPath st → GraphInv store pr st →
      StackOK store pr st (p, n.name) →
      visit p n pf st = .ok st' →
      GraphInv store pr st' ∧ (isDone st' (p, n.name) ∨ isInProgress st (p, n.name)))
    (tpath : String) (profs : List String) (doc : List ConfigurationNode) (aid : NodeId)
    (hdoc : load store tpath = some doc)
    (hprofs : profs ⊆ storeRuleNames store) :
    ∀ names s s',
      CoreInv store rootPath s → GraphInv store pr s → StackOK store pr s aid →
      (∀ nm ∈ names, (tpath, nm) ∈ succsOf store pr aid) →
      goNames visit tpath profs doc names s = .ok s' →
      CoreInv store rootPath s' ∧ GraphInv store pr s' ∧ StackOK store pr s' aid ∧
        (∀ nm ∈ names, isDone s' (tpath, nm) ∨
          (isInProgress s' (tpath, nm) ∧ Reaches store pr (tpath, nm) aid)) := by
  intro names
  induction names with
  | nil =>
    intro s s' hc hg hstk _ h
    rw [goNames] at h
    cases h
    exact ⟨hc, hg, hstk, by simp⟩
  | cons nm rest ih =>
    intro s s' hc hg hstk hsuccs h
    rw [goNames] at h
    cases hf : findNode doc nm with
    | none => rw [hf] at h; cases h
    | some tnode =>
      rw [hf] at h
      dsimp only at h
      cases hres : visit tpath tnode profs s with
      | error e => rw [hres] at h; cases h
      | ok s1 =>
        rw [hres] at h
        obtain ⟨hmem, hname⟩ := findNode_mem hf
        have hnfs : NodeFromStore store tpath tnode := ⟨doc, hdoc, hmem⟩
        have htid : (tpath, tnode.name) ∈ succsOf store pr aid := by
          rw [hname]
          exact hsuccs nm (List.mem_cons_self _ _)
        have hstk_t : StackOK store pr s (tpath, tnode.name) := by
          intro id hip
          exact Relation.ReflTransGen.tail (hstk id hip) htid
        obtain ⟨hg1, hdisj⟩ :=
          hv _ _ _ _ _ hnfs (Or.inl hprofs) hc hg hstk_t hres
        have hse1 : SE s s1 := hvse _ _ _ _ _ hres
        have hc1 : CoreInv store rootPath s1 := hvc _ _ _ _ _ hnfs (Or.inl hprofs) hc hres
        have hstk1 : StackOK store pr s1 aid := by
          intro id hip
          exact hstk id ((hse1.inProgress_iff id).mp hip)
        obtain ⟨hc', hg', hstk', hrest⟩ :=
          ih s1 s' hc1 hg1 hstk1 (fun nm' hnm' => hsuccs nm' (List.mem_cons_of_mem _ hnm')) h
        refine ⟨hc', hg', hstk', ?_⟩
        intro nm' hnm'
        rcases List.mem_cons.mp hnm' with heq | hmem'
        · subst heq
          have hse1' : SE s1 s' := goNames_SE hvse _ _ _ _ _ _ h
          rcases hdisj with hdone | hip
          · left
            rw [← hname]
            exact hse1'.done_mono hdone
          · right
            rw [← hname]
            constructor
            · exact (hse1'.inProgress_iff _).mpr ((hse1.inProgress_iff _).mpr hip)
            · exact hstk _ hip
        · exact hrest nm' hmem'

end Skaffold

namespace Skaffold

theorem CoreInv.mark {store : DocumentStore} {rootPath : String} {s : ResolveState}
    {a : NodeId} (hc : CoreInv store rootPath s) (hst : statusOf s.visited a = none) :
    CoreInv store rootPath ⟨(a, .inProgress) :: s.visited, s.output⟩ := by
  refine ⟨hc.nodup, fun id => ?_, hc.fromStore, hc.profScoped⟩
  show statusOf _ id = some .done ↔ _
  rw [statusOf_cons]
  by_cases hid : a = id
  · rw [if_pos hid]
    subst hid
    constructor
    · intro hcontra; cases hcontra
    · intro hmemout
      exact absurd ((hc.doneIff _).mpr hmemout) (by simp [isDone, hst])
  · rw [if_neg hid]
    exact hc.doneIff id

theorem goEdges_graph {store : DocumentStore} {pr : PathResolver} {rootPath : String}
    {visit : String → ConfigurationNode → List String → ResolveState →
      Except ResolveError ResolveState}
    (hvse : ∀ p n pf st st', visit p n pf st = .ok st' → SE st st')
    (hvc : ∀ p n pf st st', NodeFromStore store p n →
      (pf ⊆ storeRuleNames store ∨ p = rootPath) →
      CoreInv store rootPath st → visit p n pf st = .ok st' → CoreInv store rootPath st')
    (hv : ∀ p n pf st st', NodeFromStore store p n →
      (pf ⊆ storeRuleNames store ∨ p = rootPath) →
      CoreInv store rootPath st → GraphInv store pr st →
      StackOK store pr st (p, n.name) →
      visit p n pf st = .ok st' →
      GraphInv store pr st' ∧ (isDone st' (p, n.name) ∨ isInProgress st (p, n.name)))
    (path : String) (profiles : List String) (aid : NodeId) :
    ∀ edges s s',
      (∀ e ∈ edges, ∀ rule ∈ e.activationRules, rule.profileName ∈ storeRuleNames store) →
      (∀ e ∈ edges, ∀ nm ∈ e.targetNames,
        (edgeTargetPath pr path e, nm) ∈ succsOf store pr aid) →
      CoreInv store rootPath s → GraphInv store pr s → StackOK store pr s aid →
      goEdges store pr visit path profiles edges s = .ok s' →
      CoreInv store rootPath s' ∧ GraphInv store pr s' ∧ StackOK store pr s' aid ∧
        (∀ e ∈ edges, ∀ nm ∈ e.targetNames,
          isDone s' (edgeTargetPath pr path e, nm) ∨
          (isInProgress s' (edgeTargetPath pr path e, nm) ∧
            Reaches store pr (edgeTargetPath pr path e, nm) aid)) := by
  intro edges
  induction edges with
  | nil =>
    intro s s' _ _ hc hg hstk h
    rw [goEdges] at h
    cases h
    exact ⟨hc, hg, hstk, by simp⟩
  | cons e rest ih =>
    intro s s' hrules hsuccs hc hg hstk h
    rw [goEdges] at h
    cases hl : load store (edgeTargetPath pr path e) with
    | none => rw [hl] at h; cases h
    | some doc =>
      rw [hl] at h
      dsimp only at h
      cases hgn : goNames visit (edgeTargetPath pr path e) (activate profiles e.activationRules)
          doc e.targetNames s with
      | error err => rw [hgn] at h; cases h
      | ok s1 =>
        rw [hgn] at h
        have hsub : activate profiles e.activationRules ⊆ storeRuleNames store := by
          intro p hp
          obtain ⟨r, hr, hname⟩ := activate_subset p hp
          exact hname ▸ hrules e (List.mem_cons_self _ _) r hr
        obtain ⟨hc1, hg1, hstk1, hhead⟩ :=
          goNames_graph hvse hvc hv (edgeTargetPath pr path e) _ doc aid hl hsub
            e.targetNames s s1 hc hg hstk
            (fun nm hnm => hsuccs e (List.mem_cons_self _ _) nm hnm) hgn
        obtain ⟨hc', hg', hstk', hrest⟩ :=
          ih s1 s' (fun e' he' => hrules e' (List.mem_cons_of_mem _ he'))
            (fun e' he' => hsuccs e' (List.mem_cons_of_mem _ he')) hc1 hg1 hstk1 h
        refine ⟨hc', hg', hstk', ?_⟩
        intro e' he' nm hnm
        rcases List.mem_cons.mp he' with heq | hmem'
        · subst heq
          have hse : SE s1 s' := goEdges_SE hvse _ _ _ _ _ h
          rcases hhead nm hnm with hdone | ⟨hip, hre⟩
          · exact Or.inl (hse.done_mono hdone)
          · exact Or.inr ⟨(hse.inProgress_iff _).mpr hip, hre⟩
        · exact hrest e' hmem' nm hnm

theorem visitNode_graph (store : DocumentStore) (pr : PathResolver) (rootPath : String)
    (hwf : StoreNamesWF store) :
    ∀ fuel path node profiles s s', NodeFromStore store path node →
      (profiles ⊆ storeRuleNames store ∨ path = rootPath) →
      CoreInv store rootPath s → GraphInv store pr s →
      StackOK store pr s (path, node.name) →
      visitNode store pr fuel path node profiles s = .ok s' →
      GraphInv store pr s' ∧ (isDone s' (path, node.name) ∨ isInProgress s (path, node.name)) := by
  intro fuel
  induction fuel with
  | zero =>
    intro path node profiles s s' _ _ _ _ _ h
    rw [visitNode] at h
    cases h
  | succ fuel ih =>
    intro path node profiles s s' hnfs hprofs hc hg hstk h
    rw [visitNode] at h
    cases hst : statusOf s.visited (path, node.name) with
    | some st =>
      rw [hst] at h
      cases st
      · cases h; exact ⟨hg, Or.inr hst⟩
      · cases h; exact ⟨hg, Or.inl hst⟩
    | none =>
      rw [hst] at h
      cases hge : goEdges store pr (fun p n pf st => visitNode store pr fuel p n pf st)
          path profiles node.requirements
          ⟨((path, node.name), .inProgress) :: s.visited, s.output⟩ with
      | error e => rw [hge] at h; cases h
      | ok s2 =>
        rw [hge] at h
        cases h
        obtain ⟨doc, hdoc, hmem⟩ := hnfs
        have hsucca : succsOf store pr (path, node.name)
            = targetsOfEdges pr path node.requirements := succsOf_eq hwf hdoc hmem
        have hc1 : CoreInv store rootPath
            ⟨((path, node.name), .inProgress) :: s.visited, s.output⟩ := hc.mark hst
        have hg1 : GraphInv store pr
            ⟨((path, node.name), .inProgress) :: s.visited, s.output⟩ := by
          constructor
          · intro id hd t ht
            rw [isDone] at hd
            dsimp only at hd
            rw [statusOf_cons] at hd
            by_cases hid : (path, node.name) = id
            · rw [if_pos hid] at hd; cases hd
            · rw [if_neg hid] at hd
              exact seen_cons (hg.closedDone id hd t ht)
          · exact hg.ordered
        have hstk1 : StackOK store pr
            ⟨((path, node.name), .inProgress) :: s.visited, s.output⟩ (path, node.name) := by
          intro id hip
          rw [isInProgress] at hip
          dsimp only at hip
          rw [statusOf_cons] at hip
          by_cases hid : (path, node.name) = id
          · rw [← hid]
            exact Relation.ReflTransGen.refl
          · rw [if_neg hid] at hip
            exact hstk id hip
        have hrules : ∀ e ∈ node.requirements, ∀ rule ∈ e.activationRules,
            rule.profileName ∈ storeRuleNames store :=
          fun e he rule hr => mem_storeRuleNames hdoc hmem he hr
        have hsuccs : ∀ e ∈ node.requirements, ∀ nm ∈ e.targetNames,
            (edgeTargetPath pr path e, nm) ∈ succsOf store pr (path, node.name) := by
          intro e he nm hnm
          rw [hsucca]
          exact mem_targetsOfEdges he hnm
        obtain ⟨hc2, hg2, hstk2, hEC⟩ :=
          goEdges_graph (fun p n pf st st' hh => visitNode_SE store pr fuel p n pf st st' hh)
            (fun p n pf st st' h1 h2 h3 h4 =>
              visitNode_core store pr rootPath fuel p n pf st st' h1 h2 h3 h4)
            (fun p n pf st st' h1 h2 h3 h4 h5 h6 => ih p n pf st st' h1 h2 h3 h4 h5 h6)
            path profiles (path, node.name) node.requirements _ s2 hrules hsuccs hc1 hg1
            hstk1 hge
        have hse12 : SE ⟨((path, node.name), .inProgress) :: s.visited, s.output⟩ s2 :=
          goEdges_SE (fun p n pf st st' hh => visitNode_SE store pr fuel p n pf st st' hh)
            path profiles _ _ _ hge
        have hseen_of_EC : ∀ t ∈ succsOf store pr (path, node.name), seen s2 t := by
          intro t ht
          rw [hsucca] at ht
          obtain ⟨e, he, nm, hnm, hteq⟩ := targetsOfEdges_mem_inv ht
          subst hteq
          rcases hEC e he nm hnm with hdone | ⟨hip, _⟩
          · rw [isDone] at hdone
            rw [seen, hdone]
            simp
          · rw [isInProgress] at hip
            rw [seen, hip]
            simp
        constructor
        · constructor
          · intro id hd t ht
            rw [isDone] at hd
            dsimp only at hd
            rw [statusOf_cons] at hd
            show statusOf _ t ≠ none
            by_cases hid : (path, node.name) = id
            · subst hid
              exact seen_cons (hseen_of_EC t ht)
            · rw [if_neg hid] at hd
              exact seen_cons (hg2.closedDone id hd t ht)
          · intro i hi t ht
            dsimp only at hi ht ⊢
            rw [List.length_append, List.length_singleton] at hi
            by_cases hlt : i < s2.output.length
            · have hget : (s2.output ++ [mkResolved path node profiles])[i]
                  = s2.output[i] := List.getElem_append_left hlt
              rw [hget] at ht ⊢
              rw [List.take_append_of_le_length (Nat.le_of_lt hlt)]
              exact hg2.ordered i hlt t ht
            · have hieq : i = s2.output.length := by omega
              subst hieq
              have hget : (s2.output ++ [mkResolved path node profiles])[s2.output.length]
                  = mkResolved path node profiles := by
                rw [List.getElem_append_right (Nat.le_refl _)]
                simp
              rw [hget] at ht ⊢
              rw [List.take_append_of_le_length (Nat.le_refl _), List.take_length]
              have hrid : rid (mkResolved path node profiles) = (path, node.name) := rfl
              rw [hrid] at ht ⊢
              rw [hsucca] at ht
              obtain ⟨e, he, nm, hnm, hteq⟩ := targetsOfEdges_mem_inv ht
              subst hteq
              rcases hEC e he nm hnm with hdone | ⟨_, hre⟩
              · exact Or.inl ((hc2.doneIff _).mp hdone)
              · exact Or.inr hre
        · left
          show statusOf _ _ = some .done
          rw [statusOf_cons, if_pos rfl]

theorem visitRoots_graph (store : DocumentStore) (pr : PathResolver) (fuel : Nat)
    (rootPath : String) (g : List String) (rootDoc : List ConfigurationNode)
    (hwf : StoreNamesWF store) (hroot : load store rootPath = some rootDoc) :
    ∀ nodes s s', (∀ n ∈ nodes, n ∈ rootDoc) →
      CoreInv store rootPath s → GraphInv store pr s →
      (∀ id, ¬ isInProgress s id) →
      visitRoots store pr fuel rootPath g nodes s = .ok s' →
      GraphInv store pr s' ∧ (∀ id, ¬ isInProgress s' id) ∧
        (∀ n ∈ nodes, isDone s' (rootPath, n.name)) := by
  intro nodes
  induction nodes with
  | nil =>
    intro s s' _ _ hg hnip h
    rw [visitRoots] at h
    cases h
    exact ⟨hg, hnip, by simp⟩
  | cons n rest ih =>
    intro s s' hmem hc hg hnip h
    rw [visitRoots] at h
    cases hres : visitNode store pr fuel rootPath n g s with
    | error e => rw [hres] at h; cases h
    | ok s1 =>
      rw [hres] at h
      have hnfs : NodeFromStore store rootPath n :=
        ⟨rootDoc, hroot, hmem n (List.mem_cons_self _ _)⟩
      obtain ⟨hg1, hdisj⟩ :=
        visitNode_graph store pr rootPath hwf fuel rootPath n g s s1 hnfs (Or.inr rfl)
          hc hg (fun id hip => absurd hip (hnip id)) hres
      have hse1 : SE s s1 := visitNode_SE store pr fuel rootPath n g s s1 hres
      have hc1 : CoreInv store rootPath s1 :=
        visitNode_core store pr rootPath fuel rootPath n g s s1 hnfs (Or.inr rfl) hc hres
      have hnip1 : ∀ id, ¬ isInProgress s1 id := by
        intro id hip
        exact hnip id ((hse1.inProgress_iff id).mp hip)
      obtain ⟨hg', hnip', hrest⟩ :=
        ih s1 s' (fun m hm => hmem m (List.mem_cons_of_mem _ hm)) hc1 hg1 hnip1 h
      refine ⟨hg', hnip', ?_⟩
      intro m hm
      rcases List.mem_cons.mp hm with heq | hmem'
      · subst heq
        have hse' : SE s1 s' := visitRoots_SE store pr fuel rootPath g rest s1 s' h
        rcases hdisj with hdone | hip
        · exact hse'.done_mono hdone
        · exact absurd hip (hnip _)
      · exact hrest m hmem'

end Skaffold

namespace Skaffold

/-- The identity is required, transitively, by some node of the root document. -/
def RootReachable (store : DocumentStore) (pr : PathResolver) (rootPath : String)
    (id : NodeId) : Prop :=
  ∃ doc, load store rootPath = some doc ∧
    ∃ n ∈ doc, Reaches store pr (rootPath, n.name) id

theorem resolveFullSet_graph {store : DocumentStore} {pr : PathResolver} {fuel : Nat}
    {rootPath : String} {g : List String} {L : List ResolvedNode}
    (hwf : StoreNamesWF store)
    (h : resolveFullSet store pr fuel rootPath g = .ok L) :
    OrderOK store pr L ∧
    (∀ id, RootReachable store pr rootPath id → id ∈ L.map rid) := by
  rw [resolveFullSet] at h
  cases hl : load store rootPath with
  | none => rw [hl] at h; cases h
  | some rootDoc =>
    rw [hl] at h
    dsimp only at h
    cases hvr : visitRoots store pr fuel rootPath g rootDoc ⟨[], []⟩ with
    | error e => rw [hvr] at h; cases h
    | ok s =>
      rw [hvr] at h
      cases h
      have hc : CoreInv store rootPath s :=
        visitRoots_core store pr fuel rootPath g rootDoc hl rootDoc ⟨[], []⟩ s
          (fun _ hm => hm) (coreInv_initial store rootPath) hvr
      have hnip0 : ∀ id, ¬ isInProgress (⟨[], []⟩ : ResolveState) id := by
        intro id hip
        rw [isInProgress] at hip
        cases hip
      obtain ⟨hg, hnip, hroots⟩ :=
        visitRoots_graph store pr fuel rootPath g rootDoc hwf hl rootDoc ⟨[], []⟩ s
          (fun _ hm => hm) (coreInv_initial store rootPath)
          (graphInv_initial store pr) hnip0 hvr
      refine ⟨hg.ordered, ?_⟩
      intro id hreach
      obtain ⟨doc, hdoc, n, hn, hre⟩ := hreach
      rw [hl] at hdoc
      cases hdoc
      have hdone_root : isDone s (rootPath, n.name) := hroots n hn
      have hdone : isDone s id := by
        clear hroots
        induction hre with
        | refl => exact hdone_root
        | tail hab hbc ihab =>
          rename_i b c
          have hseen : seen s c := hg.closedDone b ihab c hbc
          cases hstc : statusOf s.visited c with
          | none => exact absurd hstc hseen
          | some st =>
            cases st
            · exact absurd hstc (hnip c)
            · exact hstc
      exact (hc.doneIff id).mp hdone

end Skaffold

namespace Skaffold

/-! ### Totality: a closed store resolves without error -/

/-- Number of store identities the visitation map has not yet seen. -/
def unseenCount (store : DocumentStore) (m : List (NodeId × VisitStatus)) : Nat :=
  ((storeIds store).filter (fun id => (statusOf m id).isNone)).length

theorem length_filter_mono {α : Type _} {p q : α → Bool} :
    ∀ l : List α, (∀ x ∈ l, p x = true → q x = true) →
      (l.filter p).length ≤ (l.filter q).length := by
  intro l
  induction l with
  | nil => simp
  | cons x rest ih =>
    intro h
    rw [List.filter_cons, List.filter_cons]
    by_cases hp : p x = true
    · rw [if_pos hp, if_pos (h x (List.mem_cons_self _ _) hp)]
      simp only [List.length_cons]
      exact Nat.succ_le_succ (ih fun y hy hpy => h y (List.mem_cons_of_mem _ hy) hpy)
    · rw [if_neg hp]
      have hle := ih fun y hy hpy => h y (List.mem_cons_of_mem _ hy) hpy
      by_cases hq : q x = true
      · rw [if_pos hq]
        exact Nat.le_succ_of_le hle
      · rw [if_neg hq]
        exact hle

theorem length_filter_lt {α : Type _} {p q : α → Bool} {a : α} :
    ∀ l : List α, a ∈ l → p a = false → q a = true →
      (∀ x ∈ l, p x = true → q x = true) →
      (l.filter p).length < (l.filter q).length := by
  intro l
  induction l with
  | nil => intro h; simp at h
  | cons x rest ih =>
    intro hmem hpa hqa h
    rw [List.filter_cons, List.filter_cons]
    rcases List.mem_cons.mp hmem with heq | hmem'
    · subst heq
      rw [if_neg (by simp [hpa]), if_pos hqa]
      exact Nat.lt_succ_of_le
        (length_filter_mono rest fun y hy hpy => h y (List.mem_cons_of_mem _ hy) hpy)
    · have hlt := ih hmem' hpa hqa (fun y hy hpy => h y (List.mem_cons_of_mem _ hy) hpy)
      by_cases hp : p x = true
      · rw [if_pos hp, if_pos (h x (List.mem_cons_self _ _) hp)]
        simp only [List.length_cons]
        exact Nat.succ_lt_succ hlt
      · rw [if_neg hp]
        by_cases hq : q x = true
        · rw [if_pos hq]
          exact Nat.lt_succ_of_lt hlt
        · rw [if_neg hq]
          exact hlt

theorem unseenCount_le_of_SE {store : DocumentStore} {s s' : ResolveState} (h : SE s s') :
    unseenCount store s'.visited ≤ unseenCount store s.visited := by
  refine length_filter_mono _ (fun id _ hnone => ?_)
  rw [Option.isNone_iff_eq_none] at hnone ⊢
  exact h.none_mono hnone

theorem unseenCount_mark_lt {store : DocumentStore} {s : ResolveState} {a : NodeId}
    (ha : a ∈ storeIds store) (hst : statusOf s.visited a = none) (st : VisitStatus) :
    unseenCount store ((a, st) :: s.visited) < unseenCount store s.visited := by
  refine length_filter_lt _ ha ?_ ?_ ?_
  · rw [statusOf_cons, if_pos rfl]
    rfl
  · rw [hst]
    rfl
  · intro id _ hnone
    rw [Option.isNone_iff_eq_none] at hnone ⊢
    exact @statusOf_append_none [(a, st)] _ _ hnone

/-- A requirement edge whose target document loads and whose target names all
resolve in it. -/
def EdgeOK (store : DocumentStore) (pr : PathResolver) (path : String)
    (e : RequirementEdge) : Prop :=
  (load store (edgeTargetPath pr path e)).isSome = true ∧
  ∀ nm ∈ e.targetNames,
    (findNode ((load store (edgeTargetPath pr path e)).getD []) nm).isSome = true

/-- Closed store: every declared requirement edge loads and resolves. -/
def StoreClosedWF (store : DocumentStore) (pr : PathResolver) : Prop :=
  ∀ pd ∈ store, ∀ n ∈ pd.2, ∀ e ∈ n.requirements, EdgeOK store pr pd.1 e

theorem goNames_total {store : DocumentStore} {fuel : Nat}
    {visit : String → ConfigurationNode → List String → ResolveState →
      Except ResolveError ResolveState}
    (hvse : ∀ p n pf st st', visit p n pf st = .ok st' → SE st st')
    (hv : ∀ p n pf st, NodeFromStore store p n →
      unseenCount store st.visited < fuel → ∃ st', visit p n pf st = .ok st')
    (tpath : String) (profs : List String) (doc : List ConfigurationNode)
    (hdoc : load store tpath = some doc) :
    ∀ names s, (∀ nm ∈ names, (findNode doc nm).isSome = true) →
      unseenCount store s.visited < fuel →
      ∃ s', goNames visit tpath profs doc names s = .ok s' := by
  intro names
  induction names with
  | nil =>
    intro s _ _
    exact ⟨s, rfl⟩
  | cons nm rest ih =>
    intro s hnames hU
    have hsome := hnames nm (List.mem_cons_self _ _)
    cases hf : findNode doc nm with
    | none => rw [hf] at hsome; simp at hsome
    | some tnode =>
      obtain ⟨s1, hs1⟩ := hv tpath tnode profs s ⟨doc, hdoc, (findNode_mem hf).1⟩ hU
      have hU1 : unseenCount store s1.visited < fuel :=
        Nat.lt_of_le_of_lt (unseenCount_le_of_SE (hvse _ _ _ _ _ hs1)) hU
      obtain ⟨s', hs'⟩ := ih s1 (fun nm' hnm' => hnames nm' (List.mem_cons_of_mem _ hnm')) hU1
      refine ⟨s', ?_⟩
      rw [goNames, hf]
      dsimp only
      rw [hs1]
      dsimp only
      exact hs'

theorem goEdges_total {store : DocumentStore} {pr : PathResolver} {fuel : Nat}
    {visit : String → ConfigurationNode → List String → ResolveState →
      Except ResolveError ResolveState}
    (hvse : ∀ p n pf st st', visit p n pf st = .ok st' → SE st st')
    (hv : ∀ p n pf st, NodeFromStore store p n →
      unseenCount store st.visited < fuel → ∃ st', visit p n pf st = .ok st')
    (path : String) (profiles : List String) :
    ∀ edges s, (∀ e ∈ edges, EdgeOK store pr path e) →
      unseenCount store s.visited < fuel →
      ∃ s', goEdges store pr visit path profiles edges s = .ok s' := by
  intro edges
  induction edges with
  | nil =>
    intro s _ _
    exact ⟨s, rfl⟩
  | cons e rest ih =>
    intro s hedges hU
    obtain ⟨hload, hnames⟩ := hedges e (List.mem_cons_self _ _)
    cases hl : load store (edgeTargetPath pr path e) with
    | none => rw [hl] at hload; simp at hload
    | some doc =>
      rw [hl] at hnames
      simp only [Option.getD_some] at hnames
      obtain ⟨s1, hs1⟩ :=
        goNames_total hvse hv (edgeTargetPath pr path e) (activate profiles e.activationRules)
          doc hl e.targetNames s hnames hU
      have hU1 : unseenCount store s1.visited < fuel :=
        Nat.lt_of_le_of_lt (unseenCount_le_of_SE (goNames_SE hvse _ _ _ _ _ _ hs1)) hU
      obtain ⟨s', hs'⟩ := ih s1 (fun e' he' => hedges e' (List.mem_cons_of_mem _ he')) hU1
      refine ⟨s', ?_⟩
      rw [goEdges, hl]
      dsimp only
      rw [hs1]
      dsimp only
      exact hs'

theorem visitNode_total (store : DocumentStore) (pr : PathResolver)
    (hclosed : StoreClosedWF store pr) :
    ∀ fuel path node profiles s, NodeFromStore store path node →
      unseenCount store s.visited < fuel →
      ∃ s', visitNode store pr fuel path node profiles s = .ok s' := by
  intro fuel
  induction fuel with
  | zero =>
    intro path node profiles s _ hU
    omega
  | succ fuel ih =>
    intro path node profiles s hnfs hU
    cases hst : statusOf s.visited (path, node.name) with
    | some st =>
      refine ⟨s, ?_⟩
      rw [visitNode, hst]
      cases st
      · rfl
      · rfl
    | none =>
      obtain ⟨doc, hdoc, hmem⟩ := hnfs
      have ha : (path, node.name) ∈ storeIds store := mem_storeIds hdoc hmem
      have hUlt : unseenCount store
          (((path, node.name), VisitStatus.inProgress) :: s.visited) < fuel := by
        have h1 := unseenCount_mark_lt (s := s) ha hst VisitStatus.inProgress
        omega
      have hedges : ∀ e ∈ node.requirements, EdgeOK store pr path e :=
        fun e he => hclosed (path, doc) (load_mem hdoc) node hmem e he
      obtain ⟨s2, hs2⟩ :=
        goEdges_total
          (fun p n pf st st' hh => visitNode_SE store pr fuel p n pf st st' hh)
          (fun p n pf st h1 h2 => ih p n pf st h1 h2)
          path profiles node.requirements
          ⟨((path, node.name), .inProgress) :: s.visited, s.output⟩ hedges hUlt
      refine ⟨⟨((path, node.name), .done) :: s2.visited,
               s2.output ++ [mkResolved path node profiles]⟩, ?_⟩
      rw [visitNode, hst]
      dsimp only
      rw [hs2]

theorem visitRoots_total (store : DocumentStore) (pr : PathResolver)
    (hclosed : StoreClosedWF store pr) (rootPath : String) (g : List String)
    (rootDoc : List ConfigurationNode) (hroot : load store rootPath = some rootDoc) :
    ∀ fuel nodes s, (∀ n ∈ nodes, n ∈ rootDoc) →
      unseenCount store s.visited < fuel →
      ∃ s', visitRoots store pr fuel rootPath g nodes s = .ok s' := by
  intro fuel nodes
  induction nodes with
  | nil =>
    intro s _ _
    exact ⟨s, rfl⟩
  | cons n rest ih =>
    intro s hmem hU
    obtain ⟨s1, hs1⟩ :=
      visitNode_total store pr hclosed fuel rootPath n g s
        ⟨rootDoc, hroot, hmem n (List.mem_cons_self _ _)⟩ hU
    have hU1 : unseenCount store s1.visited < fuel :=
      Nat.lt_of_le_of_lt
        (unseenCount_le_of_SE (visitNode_SE store pr fuel rootPath n g s s1 hs1)) hU
    obtain ⟨s', hs'⟩ := ih s1 (fun m hm => hmem m (List.mem_cons_of_mem _ hm)) hU1
    refine ⟨s', ?_⟩
    rw [visitRoots, hs1]
    dsimp only
    exact hs'

theorem resolveFullSet_total {store : DocumentStore} {pr : PathResolver}
    {rootPath : String} {g : List String} {rootDoc : List ConfigurationNode}
    (hclosed : StoreClosedWF store pr) (hroot : load store rootPath = some rootDoc) :
    ∃ L, resolveFullSet store pr (defaultFuel store) rootPath g = .ok L := by
  have hU0 : unseenCount store ([] : List (NodeId × VisitStatus)) < defaultFuel store := by
    rw [defaultFuel]
    have hle : unseenCount store [] ≤ (storeIds store).length :=
      List.length_filter_le _ _
    omega
  obtain ⟨s', hs'⟩ :=
    visitRoots_total store pr hclosed rootPath g rootDoc hroot (defaultFuel store) rootDoc
      ⟨[], []⟩ (fun _ hm => hm) hU0
  refine ⟨s'.output, ?_⟩
  rw [resolveFullSet, hroot]
  dsimp only
  rw [hs']

end Skaffold

namespace Skaffold

/-! ### Selection filter: closure soundness and completeness -/

/-- One recorded-dependency hop inside a resolved set (spec §4.3). -/
def DepRel (pr : PathResolver) (resolved : List ResolvedNode) (a b : NodeId) : Prop :=
  b ∈ depsOf pr resolved a

/-- Transitive dependency reachability inside a resolved set. -/
def DepReaches (pr : PathResolver) (resolved : List ResolvedNode) :
    NodeId → NodeId → Prop :=
  Relation.ReflTransGen (DepRel pr resolved)

theorem closureIter_sub {pr : PathResolver} {resolved : List ResolvedNode} :
    ∀ k cur, cur ⊆ closureIter pr resolved k cur := by
  intro k
  induction k with
  | zero => intro cur x hx; exact hx
  | succ k ih =>
    intro cur x hx
    rw [closureIter]
    by_cases hnew : closureStepNew pr resolved cur = []
    · rw [if_pos hnew]; exact hx
    · rw [if_neg hnew]
      exact ih _ (List.mem_append_left _ hx)

theorem closureIter_sound {pr : PathResolver} {resolved : List ResolvedNode}
    {seeds0 : List NodeId} :
    ∀ k cur, (∀ y ∈ cur, ∃ sd ∈ seeds0, DepReaches pr resolved sd y) →
      ∀ x ∈ closureIter pr resolved k cur,
        ∃ sd ∈ seeds0, DepReaches pr resolved sd x := by
  intro k
  induction k with
  | zero => intro cur hcur x hx; exact hcur x hx
  | succ k ih =>
    intro cur hcur x hx
    rw [closureIter] at hx
    by_cases hnew : closureStepNew pr resolved cur = []
    · rw [if_pos hnew] at hx; exact hcur x hx
    · rw [if_neg hnew] at hx
      refine ih (cur ++ closureStepNew pr resolved cur) ?_ x hx
      intro y hy
      rcases List.mem_append.mp hy with h | h
      · exact hcur y h
      · have hfm : y ∈ cur.flatMap (depsOf pr resolved) :=
          (List.mem_filter.mp (List.mem_dedup.mp h)).1
        obtain ⟨z, hz, hdep⟩ := List.mem_flatMap.mp hfm
        obtain ⟨sd, hsd, hre⟩ := hcur z hz
        exact ⟨sd, hsd, hre.tail hdep⟩

theorem closed_of_new_nil {pr : PathResolver} {resolved : List ResolvedNode}
    {cur : List NodeId} (h : closureStepNew pr resolved cur = []) :
    ∀ a ∈ cur, ∀ b ∈ depsOf pr resolved a, b ∈ cur := by
  intro a ha b hb
  by_contra hnb
  have hbmem : b ∈ closureStepNew pr resolved cur := by
    rw [closureStepNew, List.mem_dedup, List.mem_filter]
    exact ⟨List.mem_flatMap.mpr ⟨a, ha, hb⟩, by simpa using hnb⟩
  rw [h] at hbmem
  simp at hbmem

theorem depsOf_subset_universe {pr : PathResolver} {resolved : List ResolvedNode} :
    ∀ a b, b ∈ depsOf pr resolved a → b ∈ closureUniverse pr resolved := by
  intro a b hb
  rw [closureUniverse, List.mem_append]
  right
  rw [depsOf] at hb
  obtain ⟨r, hr, hb2⟩ := List.mem_flatMap.mp hb
  have hrmem : r ∈ resolved := (List.mem_filter.mp hr).1
  exact List.mem_flatMap.mpr ⟨r, hrmem, hb2⟩

theorem closureIter_closed {pr : PathResolver} {resolved : List ResolvedNode}
    {univ : List NodeId}
    (hdeps : ∀ a b, b ∈ depsOf pr resolved a → b ∈ univ) :
    ∀ k cur, cur.Nodup → cur ⊆ univ →
      univ.length < k + cur.length →
      closureStepNew pr resolved (closureIter pr resolved k cur) = [] := by
  intro k
  induction k with
  | zero =>
    intro cur hnd hsub hlen
    have := (List.subperm_of_subset hnd hsub).length_le
    omega
  | succ k ih =>
    intro cur hnd hsub hlen
    rw [closureIter]
    by_cases hnew : closureStepNew pr resolved cur = []
    · rw [if_pos hnew]; exact hnew
    · rw [if_neg hnew]
      have hnodupnew : (closureStepNew pr resolved cur).Nodup := List.nodup_dedup _
      have hdisj : ∀ x ∈ closureStepNew pr resolved cur, x ∉ cur := by
        intro x hx
        have := (List.mem_filter.mp (List.mem_dedup.mp hx)).2
        simpa using this
      have hnd' : (cur ++ closureStepNew pr resolved cur).Nodup := by
        rw [List.nodup_append]
        exact ⟨hnd, hnodupnew, fun x hx hx2 => hdisj x hx2 hx⟩
      have hsub' : cur ++ closureStepNew pr resolved cur ⊆ univ := by
        intro x hx
        rcases List.mem_append.mp hx with h | h
        · exact hsub h
        · have hfm : x ∈ cur.flatMap (depsOf pr resolved) :=
            (List.mem_filter.mp (List.mem_dedup.mp h)).1
          obtain ⟨a, _, hdep⟩ := List.mem_flatMap.mp hfm
          exact hdeps a x hdep
      have hlen' : univ.length < k + (cur ++ closureStepNew pr resolved cur).length := by
        rw [List.length_append]
        have hpos : 0 < (closureStepNew pr resolved cur).length :=
          List.length_pos.mpr hnew
        omega
      exact ih _ hnd' hsub' hlen'

theorem mem_selectionClosure {pr : PathResolver} {resolved : List ResolvedNode}
    {seeds : List NodeId} (hseeds : seeds ⊆ closureUniverse pr resolved) (id : NodeId) :
    id ∈ selectionClosure pr resolved seeds ↔
      ∃ sd ∈ seeds, DepReaches pr resolved sd id := by
  constructor
  · intro h
    exact closureIter_sound _ _
      (fun y hy => ⟨y, List.mem_dedup.mp hy, Relation.ReflTransGen.refl⟩) id h
  · rintro ⟨sd, hsd, hre⟩
    have hclosed :=
      closureIter_closed
        depsOf_subset_universe ((closureUniverse pr resolved).length + 1) seeds.dedup
        (List.nodup_dedup _) (fun x hx => hseeds (List.mem_dedup.mp hx)) (by omega)
    have hsub : seeds.dedup ⊆ selectionClosure pr resolved seeds := closureIter_sub _ _
    rw [selectionClosure]
    induction hre with
    | refl => exact hsub (List.mem_dedup.mpr hsd)
    | tail hab hdep ihab =>
      rename_i b c
      exact closed_of_new_nil hclosed b ihab c hdep

end Skaffold

namespace Skaffold

/-! ### Helpers for the claim theorems -/

/-- A requirement edge outside every cycle: its target does not reach back to
its source. -/
def NCStep (store : DocumentStore) (pr : PathResolver) (a b : NodeId) : Prop :=
  StepR store pr a b ∧ ¬ Reaches store pr b a

theorem reaches_of_no_succs {store : DocumentStore} {pr : PathResolver} {a b : NodeId}
    (h : succsOf store pr a = []) (hr : Reaches store pr a b) : b = a := by
  rcases Relation.ReflTransGen.cases_head hr with heq | ⟨c, hac, _⟩
  · exact heq.symm
  · rw [StepR, h] at hac
    simp at hac

theorem orderOK_lift {store : DocumentStore} {pr : PathResolver} {L : List ResolvedNode}
    (hord : OrderOK store pr L) :
    ∀ (i : Nat) (hi : i < L.length) (t : NodeId),
      Relation.TransGen (NCStep store pr) (rid L[i]) t → t ∈ (L.take i).map rid := by
  intro i hi t htg
  induction htg with
  | single hstep =>
    rcases hord i hi _ hstep.1 with hmem | hre
    · exact hmem
    · exact absurd hre hstep.2
  | tail hab hbc ihab =>
    rename_i b c
    obtain ⟨rb, hrb_take, hrb_rid⟩ := List.mem_map.mp ihab
    obtain ⟨j, hjm, hjget⟩ := List.mem_take_iff_getElem.mp hrb_take
    have hj_len : j < L.length := lt_of_lt_of_le hjm (Nat.min_le_right _ _)
    have hj_i : j < i := lt_of_lt_of_le hjm (Nat.min_le_left _ _)
    have hbrid : rid L[j] = b := by rw [hjget, hrb_rid]
    rcases hord j hj_len c (by rw [hbrid]; exact hbc.1) with hmem | hre
    · obtain ⟨rc, hrc_take, hrc_rid⟩ := List.mem_map.mp hmem
      obtain ⟨j', hj'm, hj'get⟩ := List.mem_take_iff_getElem.mp hrc_take
      have hj'_len : j' < L.length := lt_of_lt_of_le hj'm (Nat.min_le_right _ _)
      have hj'_j : j' < j := lt_of_lt_of_le hj'm (Nat.min_le_left _ _)
      refine List.mem_map.mpr ⟨L[j'], ?_, by rw [hj'get, hrc_rid]⟩
      exact List.mem_take_iff_getElem.mpr ⟨j', by omega, rfl⟩
    · rw [hbrid] at hre
      exact absurd hre hbc.2

theorem resolveConfigs_of_empty_filter {store : DocumentStore} {pr : PathResolver}
    {root : String} {g : List String} {L : List ResolvedNode}
    (h : resolveFullSet store pr (defaultFuel store) root g = .ok L) :
    resolveConfigs store pr root g [] = .ok L := by
  rw [resolveConfigs, h]
  dsimp only
  rw [if_pos rfl]

theorem resolveConfigs_of_filter {store : DocumentStore} {pr : PathResolver}
    {root : String} {g req : List String} {full : List ResolvedNode}
    (hreq : req ≠ [])
    (h : resolveFullSet store pr (defaultFuel store) root g = .ok full) :
    resolveConfigs store pr root g req = selectionFilter pr req full := by
  rw [resolveConfigs, h]
  dsimp only
  rw [if_neg hreq]

theorem activateCond_iff (cur : List String) (r : ProfileActivationRule) :
    (r.triggeredBy.isEmpty || r.triggeredBy.any fun t => cur.contains t) = true ↔
      (r.triggeredBy = [] ∨ ∃ t ∈ r.triggeredBy, t ∈ cur) := by
  rw [Bool.or_eq_true, List.any_eq_true]
  constructor
  · rintro (h | ⟨t, ht, hc⟩)
    · left
      exact List.isEmpty_eq_true.mp h
    · right
      refine ⟨t, ht, ?_⟩
      simpa [List.contains, List.elem_eq_mem] using hc
  · rintro (h | ⟨t, ht, hc⟩)
    · left
      exact List.isEmpty_eq_true.mpr h
    · right
      refine ⟨t, ht, ?_⟩
      simpa [List.contains, List.elem_eq_mem] using hc

end Skaffold

namespace Skaffold

/-- C4: on every requirement edge traversal the Profile Activation Evaluator
adds a rule's `profileName` to the target's next profile set iff the rule's
`triggeredBy` set is empty (unconditional activation) or intersects the
referencing node's current active-profile set; and every rule of an edge is
evaluated against the same `currentProfiles` snapshot — the result is the
filter of the rule list by a predicate of `currentProfiles` alone, independent
of profiles activated by earlier rules on the same edge. -/
theorem claim_C4_activation_evaluator :
    (∀ (currentProfiles : List String) (rules : List ProfileActivationRule) (p : String),
      p ∈ activate currentProfiles rules ↔
        ∃ r ∈ rules, r.profileName = p ∧
          (r.triggeredBy = [] ∨ ∃ t ∈ r.triggeredBy, t ∈ currentProfiles)) ∧
    (∀ (currentProfiles : List String) (rules : List ProfileActivationRule),
      activate currentProfiles rules =
        (rules.filter (fun r =>
          r.triggeredBy.isEmpty || r.triggeredBy.any (fun t =>
            currentProfiles.contains t))).map (fun r => r.profileName)) := by
  have heq : ∀ (cur : List String) (rules : List ProfileActivationRule),
      activate cur rules = (rules.filter (fun r =>
        r.triggeredBy.isEmpty || r.triggeredBy.any (fun t => cur.contains t))).map
        (fun r => r.profileName) := by
    intro cur rules
    induction rules with
    | nil => rfl
    | cons r rest ih =>
      rw [activate, List.filter_cons]
      by_cases hc : (r.triggeredBy.isEmpty || r.triggeredBy.any fun t => cur.contains t) = true
      · rw [if_pos hc, if_pos hc, List.map_cons, ih]
      · rw [if_neg hc, if_neg hc, ih]
  refine ⟨?_, heq⟩
  intro cur rules p
  rw [heq]
  simp only [List.mem_map, List.mem_filter]
  constructor
  · rintro ⟨r, ⟨hr, hcond⟩, hname⟩
    exact ⟨r, hr, hname, (activateCond_iff cur r).mp hcond⟩
  · rintro ⟨r, hr, hname, hcond⟩
    exact ⟨r, ⟨hr, (activateCond_iff cur r).mpr hcond⟩, hname⟩

/-- C3: no (document path, name) identity is emitted twice: the identity list
of every successful resolution (with or without a name filter) has no
duplicates. -/
theorem claim_C3_output_dedup :
    ∀ (store : DocumentStore) (pr : PathResolver) (root : String)
      (g nameFilter : List String) (L : List ResolvedNode),
      resolveConfigs store pr root g nameFilter = .ok L →
      (L.map rid).Nodup := by
  intro store pr root g nameFilter L h
  rw [resolveConfigs] at h
  cases hfull : resolveFullSet store pr (defaultFuel store) root g with
  | error e => rw [hfull] at h; cases h
  | ok full =>
    rw [hfull] at h
    dsimp only at h
    have hnodup : (full.map rid).Nodup := (resolveFullSet_core hfull).1
    by_cases hnf : nameFilter = []
    · rw [if_pos hnf] at h
      cases h
      exact hnodup
    · rw [if_neg hnf] at h
      rw [selectionFilter] at h
      by_cases hm : (full.filter (fun r => r.name ∈ nameFilter)) = []
      · rw [if_pos hm] at h; cases h
      · rw [if_neg hm] at h
        cases h
        exact List.Nodup.sublist (List.Sublist.map rid (List.filter_sublist full)) hnodup

/-- Witness for C3: the identity list of the resolved literal example graph. -/
theorem claim_C3_output_dedup_witness :
    resolveConfigs exampleStore examplePr "root" [] [] = .ok exampleExpected ∧
    (exampleExpected.map rid).Nodup :=
  ⟨rfl, claim_C3_output_dedup exampleStore examplePr "root" [] [] exampleExpected rfl⟩

/-- C8: an erroring resolution returns the error alone: whenever the public
entry point reports an error, the configuration list component is empty —
resolution is all-or-nothing. -/
theorem claim_C8_all_or_nothing :
    ∀ (store : DocumentStore) (pr : PathResolver) (root : String)
      (g nameFilter : List String) (e : ResolveError),
      (getAllConfigs store pr root g nameFilter).2 = some e →
      (getAllConfigs store pr root g nameFilter).1 = [] := by
  intro store pr root g nameFilter e h
  rw [getAllConfigs] at h ⊢
  cases hres : resolveConfigs store pr root g nameFilter with
  | ok l =>
    rw [hres] at h
    dsimp only at h
    cases h
  | error err => rfl

/-- Witness for C8: the failing-selection scenario returns an empty list next
to its error even though a non-empty resolved set existed before filtering. -/
theorem claim_C8_all_or_nothing_witness :
    (getAllConfigs filterStore examplePr "root" [] ["cfg3"]).2
      = some (.selectionNotFound ["cfg3"]) ∧
    (getAllConfigs filterStore examplePr "root" [] ["cfg3"]).1 = [] :=
  ⟨rfl, claim_C8_all_or_nothing filterStore examplePr "root" [] ["cfg3"]
    (.selectionNotFound ["cfg3"]) rfl⟩

/-- C9: a requirement edge with no `targetPath` resolves its names against the
referencing node's own document, and in the self-dependency scenario the
sibling `cfg01` is emitted before its referencing node `cfg00` and is not
re-emitted at its own root position. -/
theorem claim_C9_same_document_edge :
    (∀ (pr : PathResolver) (path : String) (e : RequirementEdge),
      e.targetPath = none → edgeTargetPath pr path e = path) ∧
    resolveConfigs selfStore examplePr "root" [] [] = .ok selfExpected := by
  constructor
  · intro pr path e h
    rw [edgeTargetPath, h]
  · rfl

/-- Witness for C9: the self-dependency edge of the scenario resolves to the
root document itself. -/
theorem claim_C9_same_document_edge_witness :
    edgeTargetPath examplePr "root" (mkEdge none ["cfg01"] []) = "root" :=
  claim_C9_same_document_edge.1 examplePr "root" (mkEdge none ["cfg01"] []) rfl

end Skaffold

namespace Skaffold

instance (store : DocumentStore) : Decidable (StoreNamesWF store) := by
  unfold StoreNamesWF
  infer_instance

instance (store : DocumentStore) (pr : PathResolver) (path : String)
    (e : RequirementEdge) : Decidable (EdgeOK store pr path e) := by
  unfold EdgeOK
  infer_instance

instance (store : DocumentStore) (pr : PathResolver) : Decidable (StoreClosedWF store pr) := by
  unfold StoreClosedWF
  infer_instance

/-- Full resolved set of the filter scenario before selection. -/
def filterFull : List ResolvedNode :=
  [{ docPath := "doc2", name := "cfg21", requirements := [],
     activeProfiles := [], payload := mkPayload "image21" "doc2" },
   { docPath := "doc1", name := "cfg10", requirements := [mkEdge (some "doc2") ["cfg21"] []],
     activeProfiles := [], payload := mkPayload "image10" "doc1" },
   { docPath := "root", name := "cfg00", requirements := [mkEdge (some "doc1") ["cfg10"] []],
     activeProfiles := [], payload := mkPayload "image00" "." },
   { docPath := "doc1", name := "cfg11", requirements := [mkEdge (some "doc2") ["cfg21"] []],
     activeProfiles := [], payload := mkPayload "image11" "doc1" },
   { docPath := "root", name := "cfg01", requirements := [mkEdge (some "doc1") ["cfg11"] []],
     activeProfiles := [], payload := mkPayload "image01" "." }]

/-- C1: post-order dependency-first output: for every successful resolution of
the full set, every identity that the node at output position `i` transitively
requires along non-cyclic requirement edges appears at a position strictly less
than `i`; and the literal example graph resolved with no profiles and no filter
yields exactly the order `cfg21, cfg10, cfg00, cfg01`. -/
theorem claim_C1_postorder :
    (∀ (store : DocumentStore) (pr : PathResolver) (fuel : Nat) (root : String)
        (g : List String) (L : List ResolvedNode),
        StoreNamesWF store →
        resolveFullSet store pr fuel root g = .ok L →
        ∀ (i : Nat) (hi : i < L.length) (t : NodeId),
          Relation.TransGen (NCStep store pr) (rid L[i]) t →
          t ∈ (L.take i).map rid) ∧
    resolveConfigs exampleStore examplePr "root" [] [] = .ok exampleExpected := by
  constructor
  · intro store pr fuel root g L hwf h
    exact orderOK_lift (resolveFullSet_graph hwf h).1
  · rfl

/-- Witness for C1: in the literal example, `cfg10` at position 1 non-cyclically
requires `cfg21`, which appears at position 0. -/
theorem claim_C1_postorder_witness :
    StoreNamesWF exampleStore ∧
    resolveFullSet exampleStore examplePr 5 "root" [] = .ok exampleExpected ∧
    ("doc2", "cfg21") ∈ ((exampleExpected.take 1).map rid) := by
  refine ⟨by decide, rfl, ?_⟩
  have hstep : NCStep exampleStore examplePr ("doc1", "cfg10") ("doc2", "cfg21") := by
    constructor
    · show ("doc2", "cfg21") ∈ succsOf exampleStore examplePr ("doc1", "cfg10")
      decide
    · intro hre
      have heq := reaches_of_no_succs (a := (("doc2", "cfg21") : NodeId)) (by decide) hre
      exact absurd heq (by decide)
  exact claim_C1_postorder.1 exampleStore examplePr 5 "root" [] exampleExpected
    (by decide) rfl 1 (by decide) ("doc2", "cfg21") (Relation.TransGen.single hstep)

/-- C2: every well-formed input graph — cyclic ones included — resolves without
error, with exactly one output entry per reachable identity; and the literal
cycle scenario (`cfg00 → cfg10 → cfg21 → cfg00`) yields exactly
`cfg21, cfg10, cfg00, cfg01`, the cycle edge silently absorbed. -/
theorem claim_C2_cycle_termination :
    (∀ (store : DocumentStore) (pr : PathResolver) (root : String) (g : List String)
        (rootDoc : List ConfigurationNode),
        StoreNamesWF store → StoreClosedWF store pr →
        load store root = some rootDoc →
        ∃ L, resolveConfigs store pr root g [] = .ok L ∧ (L.map rid).Nodup ∧
          ∀ id, RootReachable store pr root id → id ∈ L.map rid) ∧
    resolveConfigs cycleStore examplePr "root" [] [] = .ok cycleExpected := by
  constructor
  · intro store pr root g rootDoc hwf hclosed hroot
    obtain ⟨L, hL⟩ := resolveFullSet_total hclosed hroot
    refine ⟨L, resolveConfigs_of_empty_filter hL, (resolveFullSet_core hL).1, ?_⟩
    intro id hreach
    exact (resolveFullSet_graph hwf hL).2 id hreach
  · rfl

/-- Witness for C2: the cycle store is well formed and closed, hence resolves
without error with one entry per reachable identity. -/
theorem claim_C2_cycle_termination_witness :
    StoreNamesWF cycleStore ∧ StoreClosedWF cycleStore examplePr ∧
    ∃ L, resolveConfigs cycleStore examplePr "root" [] [] = .ok L ∧ (L.map rid).Nodup ∧
      ∀ id, RootReachable cycleStore examplePr "root" id → id ∈ L.map rid :=
  ⟨by decide, by decide,
   claim_C2_cycle_termination.1 cycleStore examplePr "root" [] _
     (by decide) (by decide) rfl⟩

/-- C5: the caller-supplied global active-profile set reaches only the root
document's own nodes: every emitted node outside the root document carries only
profiles explicitly introduced by activation rules recorded in the store; and
the literal example resolved with global profiles `[pf0]` applies `pf0`
variants to the root document's nodes only. -/
theorem claim_C5_profile_scoping :
    (∀ (store : DocumentStore) (pr : PathResolver) (fuel : Nat) (root : String)
        (g : List String) (L : List ResolvedNode),
        resolveFullSet store pr fuel root g = .ok L →
        ∀ r ∈ L, r.docPath ≠ root → r.activeProfiles ⊆ storeRuleNames store) ∧
    resolveConfigs exampleStore examplePr "root" ["pf0"] [] = .ok profileExpected := by
  constructor
  · intro store pr fuel root g L h
    exact (resolveFullSet_core h).2.2
  · rfl

/-- Witness for C5: the dependent node `cfg21` of the literal example resolved
under global profiles `[pf0]` carries no profile not introduced by a rule. -/
theorem claim_C5_profile_scoping_witness :
    resolveFullSet exampleStore examplePr 5 "root" ["pf0"] = .ok profileExpected ∧
    ({ docPath := "doc2", name := "cfg21", requirements := [], activeProfiles := [],
       payload := mkPayload "image21" "doc2" } : ResolvedNode).activeProfiles
      ⊆ storeRuleNames exampleStore :=
  ⟨rfl, claim_C5_profile_scoping.1 exampleStore examplePr 5 "root" ["pf0"] profileExpected
    rfl _ (by decide) (by decide)⟩

/-- C10: the resolver leaves payloads untouched except for profile-variant
selection: every emitted node's payload is exactly the declared node's payload
passed through variant selection for the emitted active-profile set, and the
payload-internal workspace path and the variant table are never rewritten. -/
theorem claim_C10_payload_frame :
    ∀ (store : DocumentStore) (pr : PathResolver) (fuel : Nat) (root : String)
      (g : List String) (L : List ResolvedNode),
      resolveFullSet store pr fuel root g = .ok L →
      ∀ r ∈ L, ∃ doc n, load store r.docPath = some doc ∧ n ∈ doc ∧ n.name = r.name ∧
        r.requirements = n.requirements ∧
        r.payload = applyProfiles n.payload r.activeProfiles ∧
        r.payload.workspace = n.payload.workspace ∧
        r.payload.variants = n.payload.variants := by
  intro store pr fuel root g L h r hr
  obtain ⟨doc, n, hdoc, hn, hname, hreq, hpay⟩ := (resolveFullSet_core h).2.1 r hr
  refine ⟨doc, n, hdoc, hn, hname, hreq, hpay, ?_, ?_⟩
  · rw [hpay, applyProfiles_workspace]
  · rw [hpay, applyProfiles_variants]

/-- The emitted `cfg00` node of the profile scenario. -/
def cfg00Pf0 : ResolvedNode :=
  { docPath := "root", name := "cfg00",
    requirements := [mkEdge (some "doc1") ["cfg10"] []],
    activeProfiles := ["pf0"],
    payload := { image := "pf0image00", workspace := ".",
                 variants := [("pf0", "pf0image00"), ("pf1", "pf1image00")] } }

/-- Witness for C10: the emitted `cfg00` of the profile scenario is the declared
`cfg00` with only the `pf0` variant selected; workspace and variant table are
untouched. -/
theorem claim_C10_payload_frame_witness :
    resolveFullSet exampleStore examplePr 5 "root" ["pf0"] = .ok profileExpected ∧
    ∃ doc n, load exampleStore cfg00Pf0.docPath = some doc ∧ n ∈ doc ∧
      n.name = cfg00Pf0.name ∧
      cfg00Pf0.requirements = n.requirements ∧
      cfg00Pf0.payload = applyProfiles n.payload cfg00Pf0.activeProfiles ∧
      cfg00Pf0.payload.workspace = n.payload.workspace ∧
      cfg00Pf0.payload.variants = n.payload.variants :=
  ⟨rfl, claim_C10_payload_frame exampleStore examplePr 5 "root" ["pf0"] profileExpected
    rfl cfg00Pf0 (by decide)⟩

end Skaffold

namespace Skaffold

/-- C6: selection is closure-exact: with a non-empty name filter matching at
least one node, the output is the subsequence of the full resolved set holding
exactly the matched nodes and the nodes they transitively depend on through the
recorded requirement edges, in the original relative order; and the filter
scenario restricted to `cfg11` yields exactly `cfg21, cfg11`. -/
theorem claim_C6_selection_closure :
    (∀ (store : DocumentStore) (pr : PathResolver) (root : String)
        (g req : List String) (full out : List ResolvedNode),
        req ≠ [] →
        resolveFullSet store pr (defaultFuel store) root g = .ok full →
        resolveConfigs store pr root g req = .ok out →
        out.Sublist full ∧
          (∀ r ∈ full, r ∈ out ↔
            ∃ m ∈ full, m.name ∈ req ∧ DepReaches pr full (rid m) (rid r))) ∧
    resolveConfigs filterStore examplePr "root" [] ["cfg11"] = .ok filterExpected := by
  constructor
  · intro store pr root g req full out hreq hfull hout
    rw [resolveConfigs_of_filter hreq hfull, selectionFilter] at hout
    by_cases hm : (full.filter (fun r => r.name ∈ req)) = []
    · rw [if_pos hm] at hout
      cases hout
    · rw [if_neg hm] at hout
      cases hout
      have hseeds : ((full.filter (fun r => r.name ∈ req)).map rid)
          ⊆ closureUniverse pr full := by
        intro x hx
        rw [closureUniverse, List.mem_append]
        left
        obtain ⟨m, hmf, hmx⟩ := List.mem_map.mp hx
        exact List.mem_map.mpr ⟨m, (List.mem_filter.mp hmf).1, hmx⟩
      constructor
      · exact List.filter_sublist full
      · intro r hr
        rw [List.mem_filter]
        constructor
        · rintro ⟨_, hcl⟩
          obtain ⟨sd, hsd, hre⟩ :=
            (mem_selectionClosure hseeds (rid r)).mp (by simpa using hcl)
          obtain ⟨m, hmf, hmrid⟩ := List.mem_map.mp hsd
          obtain ⟨hmfull, hmname⟩ := List.mem_filter.mp hmf
          exact ⟨m, hmfull, by simpa using hmname, hmrid ▸ hre⟩
        · rintro ⟨m, hmfull, hmname, hre⟩
          refine ⟨hr, ?_⟩
          have hin : rid r ∈ selectionClosure pr full
              ((full.filter (fun r => r.name ∈ req)).map rid) :=
            (mem_selectionClosure hseeds (rid r)).mpr
              ⟨rid m,
               List.mem_map.mpr ⟨m, List.mem_filter.mpr ⟨hmfull, by simpa using hmname⟩, rfl⟩,
               hre⟩
          simpa using hin
  · rfl

/-- Witness for C6: the filter scenario restricted to `cfg11` is a subsequence
of its full resolved set. -/
theorem claim_C6_selection_closure_witness :
    (["cfg11"] : List String) ≠ [] ∧
    resolveFullSet filterStore examplePr (defaultFuel filterStore) "root" []
      = .ok filterFull ∧
    resolveConfigs filterStore examplePr "root" [] ["cfg11"] = .ok filterExpected ∧
    filterExpected.Sublist filterFull :=
  ⟨by decide, rfl, rfl,
   (claim_C6_selection_closure.1 filterStore examplePr "root" [] ["cfg11"] filterFull
     filterExpected (by decide) rfl rfl).1⟩

/-- C7: a non-empty name filter matching no node of the fully resolved graph
fails with the selection-not-found error naming the full requested set, and the
public entry point returns no configuration list next to it. -/
theorem claim_C7_selection_not_found :
    (∀ (store : DocumentStore) (pr : PathResolver) (root : String)
        (g req : List String) (full : List ResolvedNode),
        req ≠ [] →
        resolveFullSet store pr (defaultFuel store) root g = .ok full →
        (∀ r ∈ full, r.name ∉ req) →
        resolveConfigs store pr root g req = .error (.selectionNotFound req) ∧
        getAllConfigs store pr root g req = ([], some (.selectionNotFound req))) ∧
    getAllConfigs filterStore examplePr "root" [] ["cfg3"]
      = ([], some (.selectionNotFound ["cfg3"])) := by
  constructor
  · intro store pr root g req full hreq hfull hnone
    have hm : (full.filter (fun r => r.name ∈ req)) = [] := by
      rw [List.filter_eq_nil_iff]
      intro r hr
      simpa using hnone r hr
    have herr : resolveConfigs store pr root g req = .error (.selectionNotFound req) := by
      rw [resolveConfigs_of_filter hreq hfull, selectionFilter, if_pos hm]
    refine ⟨herr, ?_⟩
    rw [getAllConfigs, herr]
  · rfl

/-- Witness for C7: requesting `cfg3` in the filter scenario, where no resolved
node carries that name. -/
theorem claim_C7_selection_not_found_witness :
    (["cfg3"] : List String) ≠ [] ∧
    resolveFullSet filterStore examplePr (defaultFuel filterStore) "root" []
      = .ok filterFull ∧
    (∀ r ∈ filterFull, r.name ∉ (["cfg3"] : List String)) ∧
    resolveConfigs filterStore examplePr "root" [] ["cfg3"]
      = .error (.selectionNotFound ["cfg3"]) :=
  ⟨by decide, rfl, by decide,
   (claim_C7_selection_not_found.1 filterStore examplePr "root" [] ["cfg3"] filterFull
     (by decide) rfl (by decide)).1⟩

end Skaffold
